import Mathlib

/-!
# go-server/main.go : the parallel prime count

A shallow embedding of `CheckPrime`, `doBatch` and `calculatePrime` of
`src/go-server/main.go`, and the properties of the work distribution.

Conventions of the embedding.

* `int64` values are mathematical integers (`Int`) kept in the range
  `MinInt64 .. MaxInt64`; `atomic.AddInt64` wraps around (`wrap64`), as the Go
  language defines for signed integer overflow.
* `int(math.Sqrt(float64(x)))` is computed as IEEE 754 binary64 arithmetic
  does (`sqrtBound`): `float64(x)` rounds `x` to 53 significant bits, to
  nearest with ties to even, `math.Sqrt` returns the correctly rounded square
  root, and `int(...)` truncates. The result is at least the integer floor of
  the square root of `x` (`intSqrt`), which it exceeds for some `x`
  (`sqrtBound_above_floor`), and below `x` (`sqrtBound_spec`).
* `int` is 64 bits wide, so `int64(i)` is the identity, and `i += 2` does not
  overflow, as `sqrtBound x + 2 ≤ MaxInt64` (`sqrtBound_no_overflow`).
* A goroutine running `doBatch` is a program counter (`Pc`); the shared
  variables `start` and `totalPrime` and the program counters of all workers
  form a `State`; a schedule is the list of worker indices in the order in
  which their atomic steps are taken.
-/

namespace GoServer

/-! ## int64 arithmetic -/

/-- The constant `math.MinInt64`. -/
def MinInt64 : Int := -(2 ^ 63)

/-- The constant `math.MaxInt64`. -/
def MaxInt64 : Int := 2 ^ 63 - 1

/-- Two's complement wrap-around of a mathematical integer into `int64`. -/
def wrap64 (v : Int) : Int := (v + 2 ^ 63) % 2 ^ 64 - 2 ^ 63

/-- The call `atomic.AddInt64(addr, delta)` seen on the value stored at `addr`:
the new value, which is also the value returned. -/
def AddInt64 (old delta : Int) : Int := wrap64 (old + delta)

/-! ## The square root -/

/-- The integer floor of the square root of `x` (0 for a negative `x`): the
bound that the specification names. -/
def intSqrt (x : Int) : Int := (Nat.sqrt x.toNat : Int)

/-- The value of `float64(x)` for an `int64` value `x ≥ 0`: `x` itself below
`2 ^ 53`, otherwise `x` rounded to a multiple of the unit in the last place
`2 ^ (log2 x - 52)`, to nearest, ties to the even multiple. The value is an
integer. -/
def float64OfNat (x : Nat) : Nat :=
  if x < 2 ^ 53 then x
  else
    let u := 2 ^ (Nat.log2 x - 52)
    let q := x / u
    let r := x % u
    if 2 * r < u then q * u
    else if u < 2 * r then (q + 1) * u
    else if q % 2 = 0 then q * u
    else (q + 1) * u

/-- The integer nearest to the square root of `n` (the square root of an integer
is never half way between two integers). -/
def roundSqrt (n : Nat) : Nat :=
  if n ≤ Nat.sqrt n * Nat.sqrt n + Nat.sqrt n then Nat.sqrt n else Nat.sqrt n + 1

/-- The value of `int(math.Sqrt(y))` for a `float64` value `y` that is an integer
`0 ≤ y ≤ 2 ^ 63`: with `e = log2 y / 2` the binary exponent of the square root,
`math.Sqrt` returns the multiple of `2 ^ (e - 52)` nearest to the square root,
and the conversion to `int` drops the fraction. -/
def sqrtFloat64ToInt (y : Nat) : Nat :=
  roundSqrt (y * 4 ^ (52 - Nat.log2 y / 2)) / 2 ^ (52 - Nat.log2 y / 2)

/-- The expression `int(math.Sqrt(float64(x)))` of the loop condition of
`CheckPrime`. For a negative `x` the square root is NaN, whose conversion to
`int` is `MinInt64` on amd64; `CheckPrime` has returned before for such `x`. -/
def sqrtBound (x : Int) : Int :=
  if x < 0 then MinInt64 else (sqrtFloat64ToInt (float64OfNat x.toNat) : Int)

/-! ## CheckPrime -/

/-- Ways in which an evaluation can fail to produce a value. -/
inductive Fault where
  /-- Go's run-time panic "integer divide by zero". -/
  | divideByZero
  /-- The fuel given to the loop was used up before the loop ended. -/
  | outOfFuel
  deriving DecidableEq

/-- Go's `a % b` on `int64`: a run-time panic when `b = 0`, the truncated
remainder otherwise. -/
def rem64 (a b : Int) : Except Fault Int :=
  if b = 0 then .error .divideByZero else .ok (Int.tmod a b)

/-- What one execution of the `for` loop of `CheckPrime` did. -/
structure LoopRun where
  /-- The right operands `i` of the executed `x % int64(i)`, in order. -/
  divisors : List Int
  /-- The exit: `ok true` when the loop condition failed (control falls through
  to the `atomic.AddInt64`), `ok false` when the body executed `return`. -/
  outcome : Except Fault Bool

/-- The loop `for i := 3; i <= int(math.Sqrt(float64(x))); i += 2 { if
x%int64(i) == 0 { return } }` of `CheckPrime`, entered with loop variable `i`;
one unit of fuel is spent per evaluation of the loop condition. -/
def trialLoop (x : Int) : Nat → Int → LoopRun
  | 0, _ => ⟨[], .error .outOfFuel⟩
  | fuel + 1, i =>
    if i ≤ sqrtBound x then
      match rem64 x i with
      | .error e => ⟨[i], .error e⟩
      | .ok r =>
        if r = 0 then ⟨[i], .ok false⟩
        else ⟨i :: (trialLoop x fuel (i + 2)).divisors, (trialLoop x fuel (i + 2)).outcome⟩
    else ⟨[], .ok true⟩

/-- The function `CheckPrime(x, totalPrime)` with a bound on the number of loop
condition evaluations: the value it leaves in `*totalPrime`. -/
def CheckPrimeFuel (fuel : Nat) (x totalPrime : Int) : Except Fault Int :=
  if x < 2 then .ok totalPrime
  else if x = 2 then .ok (AddInt64 totalPrime 1)
  else if Int.tmod x 2 = 0 then .ok totalPrime
  else
    match (trialLoop x fuel 3).outcome with
    | .error e => .error e
    | .ok false => .ok totalPrime
    | .ok true => .ok (AddInt64 totalPrime 1)

/-- A number of loop condition evaluations that the loop of `CheckPrime` never
exceeds on `x`. -/
def loopFuel (x : Int) : Nat := (sqrtBound x).toNat + 1

/-- The function `CheckPrime(x, totalPrime)`: the value it leaves in `*totalPrime`. -/
def CheckPrime (x totalPrime : Int) : Except Fault Int :=
  CheckPrimeFuel (loopFuel x) x totalPrime

/-! ## doBatch and calculatePrime -/

/-- Where one goroutine running `doBatch` stands. -/
inductive Pc where
  /-- At `x := atomic.AddInt64(start, 1)`. -/
  | claim
  /-- At `if x > max`, holding the claimed value `x`. -/
  | test (x : Int)
  /-- At the call `CheckPrime(x, totalPrime)`. -/
  | check (x : Int)
  /-- After `break`: the loop is left and the deferred `wg.Done()` runs. -/
  | done
  /-- Stopped by a run-time panic raised inside `CheckPrime`. -/
  | panicked (f : Fault)
  deriving DecidableEq

/-- What a worker did in one atomic step, recorded in the history of a run. -/
inductive Event where
  /-- The call `atomic.AddInt64(start, 1)` of `worker` returned `x`. -/
  | claimed (worker : Nat) (x : Int)
  /-- The goroutine `worker` called `CheckPrime(x, totalPrime)`. -/
  | evaluated (worker : Nat) (x : Int)
  /-- The goroutine `worker` left its loop on `x > max`. -/
  | exited (worker : Nat) (x : Int)
  deriving DecidableEq

/-- The shared variables of `calculatePrime`, the program counters of the
goroutines it started, and the history of the run (oldest event first). -/
structure State where
  /-- The shared counter `start`. -/
  start : Int
  /-- The shared accumulator `totalPrime`. -/
  totalPrime : Int
  /-- One program counter per goroutine. -/
  workers : List Pc
  /-- The events so far, oldest first. -/
  log : List Event
  deriving DecidableEq

/-- One atomic step of worker `w` in `doBatch(name, wg, start, max, totalPrime)`;
`none` when there is no such worker or it has stopped. The call of `CheckPrime`
is one step: it touches shared memory only in its single `atomic.AddInt64`. -/
def stepWorker (max : Int) (s : State) (w : Nat) : Option State :=
  match s.workers.get? w with
  | none => none
  | some .claim =>
    some { s with
      start := AddInt64 s.start 1
      workers := s.workers.set w (.test (AddInt64 s.start 1))
      log := s.log ++ [.claimed w (AddInt64 s.start 1)] }
  | some (.test x) =>
    if x > max then
      some { s with workers := s.workers.set w .done, log := s.log ++ [.exited w x] }
    else
      some { s with workers := s.workers.set w (.check x) }
  | some (.check x) =>
    match CheckPrime x s.totalPrime with
    | .ok t =>
      some { s with
        totalPrime := t
        workers := s.workers.set w .claim
        log := s.log ++ [.evaluated w x] }
    | .error f =>
      some { s with workers := s.workers.set w (.panicked f), log := s.log ++ [.evaluated w x] }
  | some .done => none
  | some (.panicked _) => none

/-- The state reached by taking the atomic steps of the workers in the order
`sched`; `none` when the schedule names a worker that cannot step. -/
def run (max : Int) : State → List Nat → Option State
  | s, [] => some s
  | s, w :: ws =>
    match stepWorker max s w with
    | none => none
    | some s' => run max s' ws

/-- The state in which `calculatePrime` leaves its `for` loop: `start` and
`totalPrime` are 0 and `concurrency` goroutines stand at the head of `doBatch`
(a goroutine not started yet is one that has not been scheduled yet). -/
def initState (concurrency : Nat) : State :=
  { start := 0, totalPrime := 0, workers := List.replicate concurrency .claim, log := [] }

/-- Every worker has left its loop: `wg.Wait()` returns. -/
def allDone (s : State) : Prop := ∀ pc ∈ s.workers, pc = Pc.done

instance (s : State) : Decidable (allDone s) := by
  unfold allDone
  infer_instance

/-- The constant `MAX` of `calculatePrime`. -/
def MAX : Int := 100000

/-- The constant `CONCURRENCY` of `calculatePrime`. -/
def CONCURRENCY : Nat := 10

/-- The function `calculatePrime` under the schedule `sched`: the value of
`totalPrime` it prints after `wg.Wait()` returned, `none` when `sched` is not a
complete run of the ten workers. -/
def calculatePrime (sched : List Nat) : Option Int :=
  match run MAX (initState CONCURRENCY) sched with
  | none => none
  | some s => if allDone s then some s.totalPrime else none

/-! ## Reading the history of a run -/

/-- The values returned by `atomic.AddInt64(start, 1)`, in the order of the calls. -/
def claimedValues (l : List Event) : List Int :=
  l.filterMap fun e => match e with
    | .claimed _ x => some x
    | _ => none

/-- The values passed to `CheckPrime`, in the order of the calls. -/
def evaluatedValues (l : List Event) : List Int :=
  l.filterMap fun e => match e with
    | .evaluated _ x => some x
    | _ => none

/-- The values on which a worker left its loop, in order. -/
def exitValues (l : List Event) : List Int :=
  l.filterMap fun e => match e with
    | .exited _ x => some x
    | _ => none

/-- The claimed value a worker holds and has not used yet. -/
def held : Pc → List Int
  | .test x => [x]
  | .check x => [x]
  | _ => []

/-- The integers `1, 2, ..., n` in increasing order. -/
def upTo (n : Nat) : List Int := (List.range' 1 n).map fun (k : Nat) => (k : Int)

/-- The number of primes `p` with `1 ≤ p ≤ max`. -/
def primeCount (max : Int) : Nat := (List.range' 1 max.toNat).countP fun p => Nat.Prime p

/-! ## Bookkeeping for the proofs -/

/-- Indicator of a worker that has left its loop. -/
def isDone : Pc → Nat
  | .done => 1
  | _ => 0

/-- Indicator of a worker that has claimed a value above `max`: it has left its
loop or leaves it with its next step. -/
def leaving (max : Int) : Pc → Nat
  | .done => 1
  | .test x => if max < x then 1 else 0
  | _ => 0

/-- The claimed value a worker holds, as a multiset. -/
def heldM (pc : Pc) : Multiset Int := ↑(held pc)

/-- The invariant of a run with `concurrency` workers while the counter cannot
wrap around (`0 ≤ max` and `max + concurrency ≤ MaxInt64`). -/
structure Inv (max : Int) (concurrency : Nat) (s : State) : Prop where
  len : s.workers.length = concurrency
  start_nonneg : 0 ≤ s.start
  claimed_eq : claimedValues s.log = upTo s.start.toNat
  balance : (↑(claimedValues s.log) : Multiset Int) =
    ↑(evaluatedValues s.log) + (s.workers.map heldM).sum + ↑(exitValues s.log)
  evaluated_le : ∀ x ∈ evaluatedValues s.log, x ≤ max
  exit_gt : ∀ x ∈ exitValues s.log, max < x
  check_le : ∀ x, Pc.check x ∈ s.workers → x ≤ max
  total : s.totalPrime = ((evaluatedValues s.log).countP fun x => Nat.Prime x.toNat : Nat)
  exits_len : (exitValues s.log).length = (s.workers.map isDone).sum
  bound : s.start ≤ max + ((s.workers.map (leaving max)).sum : Nat)
  no_panic : ∀ f, Pc.panicked f ∉ s.workers

/-- The number of claims that return a value at most `max` before the next
claim that returns a value above `max`, counted from the counter value `c`. -/
def claimsToExit (max c : Int) : Nat :=
  if max ≤ c ∧ c < MaxInt64 then 0 else ((max - c) % 2 ^ 64).toNat

/-- The weight of a worker in the termination measure. -/
def weight (max : Int) : Pc → Nat
  | .claim => 3 * (2 ^ 64 + 1)
  | .test x => if max < x then 2 else 3 * (2 ^ 64 + 1) + 2
  | .check _ => 3 * (2 ^ 64 + 1) + 1
  | .done => 0
  | .panicked _ => 0

/-- The termination measure: every atomic step makes it smaller. -/
def stepsLeft (max : Int) (s : State) : Nat :=
  (s.workers.map (weight max)).sum + 3 * claimsToExit max s.start

/-- A bound on the number of atomic steps of a run with `concurrency` workers. -/
def stepBound (max : Int) (concurrency : Nat) : Nat :=
  concurrency * (3 * (2 ^ 64 + 1)) + 3 * max.toNat

/-- No worker was stopped by a panic. -/
def NoPanic (s : State) : Prop := ∀ f, Pc.panicked f ∉ s.workers

/-- The number of primes among `c + 1, ..., c + n`. -/
def primesBetween (c : Int) (n : Nat) : Nat :=
  (List.range' 1 n).countP fun (k : Nat) => Nat.Prime (c + (k : Int)).toNat

/-! ## Counting the primes below 100489 by machine arithmetic -/

/-- The number `316!`: a number below `317 * 317` and above 316 is prime exactly
when it is coprime to it. -/
def F316 : Nat := 2056410584625275766114028688447474898050031704140968880610463735137473228595357640756197482760266023554168997586263919592886961249203349409557483536185374089092162349203260295131995580244836442680530520584901224764154954784360196586343451176126732634017946352199073308615878945685598982935022304287390316815402451985028639469728043315654079013700475646408464715509484032392283497998462422163717482998384498259564343998428185026720745307477933434532173854771549240804120160837896163757248489877840750268102837798901571619347642477742032446259650901942078749554461423850941631692800000000000000000000000000000000000000000000000000000000000000000000000000000

/-- A primality test for the numbers below `317 * 317`, by greatest common
divisors with factorials. -/
def fastPrime (n : Nat) : Bool :=
  bif Nat.ble 317 n then Nat.beq (Nat.gcd n F316) 1
  else bif Nat.ble 18 n then Nat.beq (Nat.gcd n 355687428096000) 1
  else bif Nat.ble 5 n then Nat.beq (Nat.gcd n 24) 1
  else Nat.beq n 2 || Nat.beq n 3

/-- The indicator of the numbers coprime to `316!`: 1 for them, 0 for the others. -/
def coprimeInd (n : Nat) : Nat := 1 - (Nat.gcd n F316 - 1)

/-- The number of `a ≤ n < a + 16` that are coprime to `316!`. -/
def countLeaf (a : Nat) : Nat :=
  coprimeInd a + coprimeInd (a + 1) + coprimeInd (a + 2) + coprimeInd (a + 3) +
    coprimeInd (a + 4) + coprimeInd (a + 5) + coprimeInd (a + 6) + coprimeInd (a + 7) +
    coprimeInd (a + 8) + coprimeInd (a + 9) + coprimeInd (a + 10) + coprimeInd (a + 11) +
    coprimeInd (a + 12) + coprimeInd (a + 13) + coprimeInd (a + 14) + coprimeInd (a + 15)

/-- The number of `a ≤ n < a + 16 * 2 ^ d` that are coprime to `316!`. -/
def countBlock : Nat → Nat → Nat
  | 0, a => countLeaf a
  | d + 1, a => countBlock d a + countBlock d (a + 16 * 2 ^ d)

/-- The worker that an event belongs to. -/
def Event.worker : Event → Nat
  | .claimed w _ => w
  | .evaluated w _ => w
  | .exited w _ => w

/-- The events of worker `w` in a history, oldest first. -/
def eventsOf (w : Nat) (l : List Event) : List Event :=
  l.filter fun e => decide (e.worker = w)

/-- Indicator of a worker that has made its first claim. -/
def claimedOnce : Pc → Nat
  | .claim => 0
  | _ => 1

/-- The invariant of a run with a bound `max < 1`: a worker has done nothing, or
has claimed a value above `max`, or has left on that value. -/
structure InvLow (max : Int) (concurrency : Nat) (s : State) : Prop where
  len : s.workers.length = concurrency
  start_eq : s.start = ((s.workers.map claimedOnce).sum : Nat)
  total : s.totalPrime = 0
  no_eval : evaluatedValues s.log = []
  hist : ∀ w pc, s.workers.get? w = some pc →
    (pc = Pc.claim ∧ eventsOf w s.log = []) ∨
    (∃ x, max < x ∧ pc = Pc.test x ∧ eventsOf w s.log = [Event.claimed w x]) ∨
    (∃ x, max < x ∧ pc = Pc.done ∧ eventsOf w s.log = [Event.claimed w x, Event.exited w x])

/-- The schedule in which worker 0 takes every value up to `max` and then the
workers leave one after the other. -/
def soloSchedule (max : Int) (concurrency : Nat) : List Nat :=
  List.replicate (3 * max.toNat) 0 ++ (List.range' 0 concurrency).flatMap fun w => [w, w]

/-- Every worker is inside its loop, holding at most a value that is not above
`MaxInt64`. -/
def Looping (s : State) : Prop :=
  ∀ pc ∈ s.workers, pc = Pc.claim ∨ (∃ x, pc = Pc.test x ∧ x ≤ MaxInt64) ∨ ∃ x, pc = Pc.check x

/-- A complete interleaving of two workers for `max = 2`. -/
def demoSchedule : List Nat := [0, 1, 0, 1, 0, 1, 0, 0, 1, 1]

/-- The state at the end of `demoSchedule`. -/
def demoFinal : State :=
  { start := 4
    totalPrime := 1
    workers := [Pc.done, Pc.done]
    log := [Event.claimed 0 1, Event.claimed 1 2, Event.evaluated 0 1, Event.evaluated 1 2,
      Event.claimed 0 3, Event.exited 0 3, Event.claimed 1 4, Event.exited 1 4] }

/-- A complete interleaving of two workers for `max = 0`. -/
def demoScheduleLow : List Nat := [0, 1, 1, 0]

/-- The state at the end of `demoScheduleLow`. -/
def demoFinalLow : State :=
  { start := 2
    totalPrime := 0
    workers := [Pc.done, Pc.done]
    log := [Event.claimed 0 1, Event.claimed 1 2, Event.exited 1 2, Event.exited 0 1] }

/-- The state after the first claims of two workers for `max = 2`. -/
def demoMid : State :=
  { start := 2
    totalPrime := 0
    workers := [Pc.test 1, Pc.test 2]
    log := [Event.claimed 0 1, Event.claimed 1 2] }

/-- The values on which worker `w` left its loop, in order. -/
def exitsOf (w : Nat) (l : List Event) : List Int := exitValues (eventsOf w l)

/-- A worker has left its loop on one value if it is done, on none otherwise. -/
def ExitOnce (s : State) : Prop :=
  ∀ w pc, s.workers.get? w = some pc → (exitsOf w s.log).length = isDone pc

/-! ## Facts about int64 arithmetic -/

theorem wrap64_of_range (v : Int) (h0 : MinInt64 ≤ v) (h1 : v ≤ MaxInt64) : wrap64 v = v := by
  unfold MinInt64 at h0
  unfold MaxInt64 at h1
  unfold wrap64
  omega

theorem wrap64_range (v : Int) : MinInt64 ≤ wrap64 v ∧ wrap64 v ≤ MaxInt64 := by
  unfold MinInt64 MaxInt64 wrap64
  omega

theorem AddInt64_one_of_lt (a : Int) (h0 : MinInt64 ≤ a) (h1 : a < MaxInt64) :
    AddInt64 a 1 = a + 1 := by
  unfold AddInt64
  exact wrap64_of_range _ (by omega) (by omega)

theorem AddInt64_one_ne (a : Int) : AddInt64 a 1 ≠ a := by
  unfold AddInt64 wrap64
  omega

/-! ## The square root in binary64 arithmetic -/

theorem roundSqrt_ge (n F : Nat) (h : F * F + 1 ≤ n + F) : F ≤ roundSqrt n := by
  unfold roundSqrt
  have h1 : n < (Nat.sqrt n + 1) * (Nat.sqrt n + 1) := Nat.lt_succ_sqrt n
  generalize Nat.sqrt n = q at h1 ⊢
  split_ifs with hc
  · by_contra hlt
    have h2 : q + 1 ≤ F := by omega
    nlinarith
  · by_contra hlt
    have h2 : q + 2 ≤ F := by omega
    nlinarith

theorem roundSqrt_lt (x y t n : Nat) (hn : n = y * (t * t)) (ht : 1 ≤ t)
    (h : (y = x ∧ 3 ≤ x) ∨ (y ≤ 2 * x ∧ 4 ≤ x)) : roundSqrt n < x * t := by
  unfold roundSqrt
  have h1 : Nat.sqrt n * Nat.sqrt n ≤ n := Nat.sqrt_le n
  generalize Nat.sqrt n = q at h1 ⊢
  have key : q + 1 < x * t := by
    by_contra hlt
    have h2 : x * t ≤ q + 1 := by omega
    rcases h with ⟨rfl, h3⟩ | ⟨hy, h4⟩
    · have h5 : 3 * t ≤ y * t := Nat.mul_le_mul_right t h3
      nlinarith
    · have h5 : 4 * t ≤ x * t := Nat.mul_le_mul_right t h4
      nlinarith
  split_ifs <;> omega

theorem log2_eq_of_range (x e : Nat) (hlo : 2 ^ e ≤ x) (hhi : x < 2 ^ (e + 1)) :
    Nat.log2 x = e := by
  have hx : x ≠ 0 := by
    have : 0 < 2 ^ e := Nat.two_pow_pos e
    omega
  have h1 : e ≤ Nat.log2 x := (Nat.le_log2 hx).mpr hlo
  have h2 : Nat.log2 x < e + 1 := (Nat.log2_lt hx).mpr hhi
  omega

theorem float64OfNat_small (x : Nat) (h : x < 2 ^ 53) : float64OfNat x = x := by
  unfold float64OfNat
  rw [if_pos h]

/-- Rounding to the nearest multiple of the unit in the last place. -/
theorem float64OfNat_round (x : Nat) (h : 2 ^ 53 ≤ x) :
    2 * x ≤ 2 * float64OfNat x + 2 ^ (Nat.log2 x - 52) ∧
    2 * float64OfNat x ≤ 2 * x + 2 ^ (Nat.log2 x - 52) ∧
    x / 2 ^ (Nat.log2 x - 52) * 2 ^ (Nat.log2 x - 52) ≤ float64OfNat x := by
  unfold float64OfNat
  rw [if_neg (by omega)]
  have hu : 0 < 2 ^ (Nat.log2 x - 52) := Nat.two_pow_pos _
  generalize 2 ^ (Nat.log2 x - 52) = u at hu ⊢
  have hdm : x / u * u + x % u = x := by
    rw [Nat.mul_comm]; exact Nat.div_add_mod x u
  have hr : x % u < u := Nat.mod_lt _ hu
  have hs : (x / u + 1) * u = x / u * u + u := Nat.succ_mul _ _
  dsimp only
  generalize x / u = q at hdm hs ⊢
  generalize x % u = r at hdm hr ⊢
  generalize q * u = p at hdm hs ⊢
  split_ifs <;> omega

theorem sqrtBound_core (x y f e : Nat) (he1 : 53 ≤ e) (he2 : e ≤ 62) (hlo : 2 ^ e ≤ x)
    (hff : f * f ≤ x) (hf : f = Nat.sqrt x) (hround : 2 * x ≤ 2 * y + 2 ^ (e - 52)) :
    f * 2 ^ (52 - e / 2) * (f * 2 ^ (52 - e / 2)) + 1 ≤
      y * 4 ^ (52 - e / 2) + f * 2 ^ (52 - e / 2) := by
  have hP : (2 ^ (e - 53) * 2 ^ (52 - e / 2) + 1) * (2 ^ (e - 53) * 2 ^ (52 - e / 2) + 1) ≤
      2 ^ e := by
    interval_cases e <;> norm_num
  have hfP : 2 ^ (e - 53) * 2 ^ (52 - e / 2) + 1 ≤ f := by
    rw [hf]
    exact Nat.le_sqrt.mpr (le_trans hP hlo)
  have hu : 2 ^ (e - 52) = 2 * 2 ^ (e - 53) := by
    rw [show e - 52 = (e - 53) + 1 by omega, pow_succ, Nat.mul_comm]
  have h4 : 4 ^ (52 - e / 2) = 2 ^ (52 - e / 2) * 2 ^ (52 - e / 2) := by
    rw [show (4 : Nat) = 2 * 2 from rfl, Nat.mul_pow]
  rw [h4]
  have hT : 1 ≤ 2 ^ (52 - e / 2) := Nat.two_pow_pos _
  rw [hu] at hround
  generalize 2 ^ (52 - e / 2) = T at hfP hT ⊢
  generalize 2 ^ (e - 53) = A at hfP hround
  have hxy : f * f ≤ y + A := by omega
  have h1 : f * f * (T * T) ≤ (y + A) * (T * T) := Nat.mul_le_mul_right _ hxy
  have h2 : A * T * T + T ≤ f * T := by
    have : (A * T + 1) * T ≤ f * T := Nat.mul_le_mul_right _ hfP
    calc A * T * T + T = (A * T + 1) * T := by ring
      _ ≤ f * T := this
  nlinarith

theorem sqrtBound_bounds (x : Nat) (h3 : 3 ≤ x) (hx : x < 2 ^ 63) :
    Nat.sqrt x ≤ sqrtFloat64ToInt (float64OfNat x) ∧
      sqrtFloat64ToInt (float64OfNat x) < x := by
  have hff : Nat.sqrt x * Nat.sqrt x ≤ x := Nat.sqrt_le x
  have hf1 : 1 ≤ Nat.sqrt x := Nat.sqrt_pos.mpr (by omega)
  have hyx : (float64OfNat x = x ∧ 3 ≤ x) ∨ (float64OfNat x ≤ 2 * x ∧ 4 ≤ x) := by
    by_cases hsmall : x < 2 ^ 53
    · exact Or.inl ⟨float64OfNat_small x hsmall, h3⟩
    · right
      have hr := float64OfNat_round x (by omega)
      have hx0 : x ≠ 0 := by omega
      have hu : 2 ^ (Nat.log2 x - 52) ≤ x :=
        le_trans (Nat.pow_le_pow_right (by decide) (Nat.sub_le _ _)) (Nat.log2_self_le hx0)
      omega
  unfold sqrtFloat64ToInt
  have h4 : ∀ s : Nat, 4 ^ s = 2 ^ s * 2 ^ s := fun s => by
    rw [show (4 : Nat) = 2 * 2 from rfl, Nat.mul_pow]
  have hT : ∀ s : Nat, 0 < 2 ^ s := fun s => Nat.two_pow_pos s
  constructor
  · rw [Nat.le_div_iff_mul_le (hT _)]
    apply roundSqrt_ge
    by_cases hcase : Nat.sqrt x * Nat.sqrt x ≤ float64OfNat x
    · rw [h4]
      have hT1 := hT (52 - Nat.log2 (float64OfNat x) / 2)
      generalize 2 ^ (52 - Nat.log2 (float64OfNat x) / 2) = T at hT1 ⊢
      have h1 : Nat.sqrt x * Nat.sqrt x * (T * T) ≤ float64OfNat x * (T * T) :=
        Nat.mul_le_mul_right _ hcase
      have h2 : 1 ≤ Nat.sqrt x * T := Nat.mul_pos hf1 hT1
      nlinarith
    · have hbig : 2 ^ 53 ≤ x := by
        by_contra hsmall
        rw [float64OfNat_small x (by omega)] at hcase
        exact hcase hff
      have hx0 : x ≠ 0 := by omega
      have he1 : 53 ≤ Nat.log2 x := (Nat.le_log2 hx0).mpr hbig
      have he2 : Nat.log2 x ≤ 62 := by
        have := (Nat.log2_lt hx0).mpr hx
        omega
      have hlo : 2 ^ Nat.log2 x ≤ x := Nat.log2_self_le hx0
      have hhi : x < 2 ^ (Nat.log2 x + 1) := Nat.lt_log2_self
      obtain ⟨hr1, _, hr3⟩ := float64OfNat_round x hbig
      -- the rounded value has the exponent of `x`
      have hylo : 2 ^ Nat.log2 x ≤ float64OfNat x := by
        have hq : 2 ^ 52 ≤ x / 2 ^ (Nat.log2 x - 52) := by
          rw [Nat.le_div_iff_mul_le (hT _), ← Nat.pow_add]
          rw [show 52 + (Nat.log2 x - 52) = Nat.log2 x by omega]
          exact hlo
        calc 2 ^ Nat.log2 x = 2 ^ 52 * 2 ^ (Nat.log2 x - 52) := by
              rw [← Nat.pow_add, show 52 + (Nat.log2 x - 52) = Nat.log2 x by omega]
          _ ≤ x / 2 ^ (Nat.log2 x - 52) * 2 ^ (Nat.log2 x - 52) := Nat.mul_le_mul_right _ hq
          _ ≤ float64OfNat x := hr3
      have hyhi : float64OfNat x < 2 ^ (Nat.log2 x + 1) := by omega
      rw [log2_eq_of_range _ _ hylo hyhi]
      exact sqrtBound_core x (float64OfNat x) (Nat.sqrt x) (Nat.log2 x) he1 he2 hlo hff rfl hr1
  · rw [Nat.div_lt_iff_lt_mul (hT _)]
    exact roundSqrt_lt x (float64OfNat x) _ _ (by rw [h4]) (hT _) hyx

theorem float64OfNat_le (x : Nat) (hx : x < 2 ^ 63) : float64OfNat x ≤ 2 ^ 63 + 2 ^ 10 := by
  by_cases hsmall : x < 2 ^ 53
  · rw [float64OfNat_small x hsmall]
    omega
  · have hr := float64OfNat_round x (by omega)
    have hx0 : x ≠ 0 := by omega
    have he2 : Nat.log2 x - 52 ≤ 10 := by
      have := (Nat.log2_lt hx0).mpr hx
      omega
    have hu : 2 ^ (Nat.log2 x - 52) ≤ 2 ^ 10 := Nat.pow_le_pow_right (by decide) he2
    omega

/-- The bound of the loop leaves room for `i += 2` in 64 bits. -/
theorem sqrtBound_add_two (x : Nat) (hx : x < 2 ^ 63) :
    sqrtFloat64ToInt (float64OfNat x) + 2 < 2 ^ 63 := by
  have hy := float64OfNat_le x hx
  unfold sqrtFloat64ToInt
  have h4 : ∀ s : Nat, 4 ^ s = 2 ^ s * 2 ^ s := fun s => by
    rw [show (4 : Nat) = 2 * 2 from rfl, Nat.mul_pow]
  have hT : ∀ s : Nat, 0 < 2 ^ s := fun s => Nat.two_pow_pos s
  have h := roundSqrt_lt (2 ^ 62 + 2 ^ 9) (float64OfNat x)
    (2 ^ (52 - Nat.log2 (float64OfNat x) / 2))
    (float64OfNat x * 4 ^ (52 - Nat.log2 (float64OfNat x) / 2)) (by rw [h4]) (hT _)
    (Or.inr ⟨by omega, by norm_num⟩)
  have := (Nat.div_lt_iff_lt_mul (hT _)).mpr h
  omega

/-- The bound of the loop of `CheckPrime` is at least the integer floor of the
square root of `x`, and below `x`. -/
theorem sqrtBound_spec (x : Int) (h3 : 3 ≤ x) (hx : x ≤ MaxInt64) :
    intSqrt x ≤ sqrtBound x ∧ sqrtBound x < x := by
  unfold MaxInt64 at hx
  obtain ⟨h1, h2⟩ := sqrtBound_bounds x.toNat (by omega) (by omega)
  unfold sqrtBound intSqrt
  rw [if_neg (by omega)]
  constructor
  · exact_mod_cast h1
  · have hxn : ((x.toNat : Nat) : Int) = x := Int.toNat_of_nonneg (by omega)
    have h3 : ((sqrtFloat64ToInt (float64OfNat x.toNat) : Nat) : Int) < ((x.toNat : Nat) : Int) := by
      exact_mod_cast h2
    rw [hxn] at h3
    exact h3

/-- The counter `i` of the loop stays in the `int64` range: `i += 2` is executed
only at `i ≤ sqrtBound x`. -/
theorem sqrtBound_no_overflow (x : Int) (hx : x ≤ MaxInt64) : sqrtBound x + 2 ≤ MaxInt64 := by
  unfold sqrtBound
  split_ifs with hneg
  · decide
  · unfold MaxInt64 at hx ⊢
    have h := sqrtBound_add_two x.toNat (by omega)
    have h2 : ((sqrtFloat64ToInt (float64OfNat x.toNat) + 2 : Nat) : Int) < ((2 ^ 63 : Nat) : Int) := by
      exact_mod_cast h
    push_cast at h2
    omega

theorem roundSqrt_eq_succ (n q : Nat) (h1 : q * q + q < n) (h2 : n < (q + 1) * (q + 1)) :
    roundSqrt n = q + 1 := by
  have hq : Nat.sqrt n = q := (Nat.eq_sqrt.mpr ⟨by omega, h2⟩).symm
  unfold roundSqrt
  rw [hq, if_neg (by omega)]

theorem sqrtFloat64ToInt_example (n : Nat) (h : n = 9007199515875288) :
    sqrtFloat64ToInt n = 94906267 := by
  unfold sqrtFloat64ToInt
  have hl : Nat.log2 n = 53 := by
    rw [h]
    exact log2_eq_of_range _ 53 (by norm_num) (by norm_num)
  rw [hl]
  have hr : roundSqrt (n * 4 ^ (52 - 53 / 2)) = 6369051764850687 + 1 := by
    apply roundSqrt_eq_succ
    · rw [h]; norm_num
    · rw [h]; norm_num
  rw [hr]
  norm_num

/-- The bound of the loop is not always the floor of the square root: the odd
number `9007199515875287` becomes `9007199515875288` in `float64`, the square
root of which `math.Sqrt` rounds to `94906267`, one more than the floor of the
square root of the number itself. -/
theorem sqrtBound_above_floor :
    float64OfNat 9007199515875287 = 9007199515875288 ∧
      sqrtBound 9007199515875287 = 94906267 ∧ intSqrt 9007199515875287 = 94906266 := by
  have h1 : float64OfNat 9007199515875287 = 9007199515875288 := by
    have h53 : Nat.log2 9007199515875287 = 53 :=
      log2_eq_of_range _ 53 (by norm_num) (by norm_num)
    unfold float64OfNat
    rw [if_neg (by norm_num), h53]
    norm_num
  refine ⟨h1, ?_, ?_⟩
  · unfold sqrtBound
    rw [if_neg (by norm_num)]
    show ((sqrtFloat64ToInt (float64OfNat 9007199515875287) : Nat) : Int) = 94906267
    rw [h1, sqrtFloat64ToInt_example _ rfl]
    rfl
  · unfold intSqrt
    show ((Nat.sqrt 9007199515875287 : Nat) : Int) = 94906266
    have h2 : Nat.sqrt 9007199515875287 = 94906266 := by
      symm
      rw [Nat.eq_sqrt]
      norm_num
    rw [h2]
    rfl

/-! ## Facts about the loop of CheckPrime -/

theorem rem64_of_three_le (x i : Int) (hi : 3 ≤ i) : rem64 x i = .ok (Int.tmod x i) := by
  unfold rem64
  rw [if_neg (by omega)]

theorem trialLoop_step (x : Int) (fuel : Nat) (i : Int) (hi : 3 ≤ i) :
    trialLoop x (fuel + 1) i =
      if i ≤ sqrtBound x then
        if Int.tmod x i = 0 then ⟨[i], .ok false⟩
        else ⟨i :: (trialLoop x fuel (i + 2)).divisors, (trialLoop x fuel (i + 2)).outcome⟩
      else ⟨[], .ok true⟩ := by
  rw [trialLoop, rem64_of_three_le x i hi]

theorem trialLoop_divisors (x : Int) :
    ∀ (fuel : Nat) (i : Int), 3 ≤ i →
      ∀ d ∈ (trialLoop x fuel i).divisors, 3 ≤ d ∧ d ≤ sqrtBound x := by
  intro fuel
  induction fuel with
  | zero => intro i _ d hd; simp [trialLoop] at hd
  | succ fuel ih =>
    intro i hi d hd
    rw [trialLoop_step x fuel i hi] at hd
    split_ifs at hd with h1 h2
    · simp at hd; omega
    · simp only [List.mem_cons] at hd
      rcases hd with rfl | hd
      · exact ⟨hi, h1⟩
      · exact ih (i + 2) (by omega) d hd
    · simp at hd

/-- With enough fuel the loop ends, and it falls through exactly when none of
`i, i + 2, i + 4, ...` up to the bound divides `x`. -/
theorem trialLoop_outcome (x : Int) :
    ∀ (fuel : Nat) (i : Int), 3 ≤ i → (sqrtBound x + 2 - i).toNat + 1 ≤ fuel →
      ((trialLoop x fuel i).outcome = .ok true ∧
          ∀ k : Nat, i + 2 * (k : Int) ≤ sqrtBound x → ¬ (i + 2 * (k : Int)) ∣ x) ∨
      ((trialLoop x fuel i).outcome = .ok false ∧
          ∃ k : Nat, i + 2 * (k : Int) ≤ sqrtBound x ∧ (i + 2 * (k : Int)) ∣ x) := by
  intro fuel
  induction fuel with
  | zero => intro i _ h3; omega
  | succ fuel ih =>
    intro i hi h3
    rw [trialLoop_step x fuel i hi]
    split_ifs with h4 h5
    · right
      exact ⟨rfl, 0, by simpa using h4, by simpa using Int.dvd_of_tmod_eq_zero h5⟩
    · rcases ih (i + 2) (by omega) (by omega) with ⟨ho, hall⟩ | ⟨ho, k, hk, hdvd⟩
      · left
        refine ⟨ho, ?_⟩
        intro k hk hdvd
        cases k with
        | zero => exact h5 (Int.tmod_eq_zero_of_dvd (by simpa using hdvd))
        | succ k =>
          apply hall k
          · push_cast at hk; omega
          · have e : i + 2 + 2 * (k : Int) = i + 2 * ((k + 1 : Nat) : Int) := by push_cast; ring
            rw [e]; exact hdvd
      · right
        refine ⟨ho, k + 1, ?_, ?_⟩
        · push_cast; omega
        · have e : i + 2 * ((k + 1 : Nat) : Int) = i + 2 + 2 * (k : Int) := by push_cast; ring
          rw [e]; exact hdvd
    · left
      refine ⟨rfl, ?_⟩
      intro k hk
      omega

/-- With at least `loopFuel x` units of fuel the loop entered at `i = 3` ends,
and it falls through exactly when no odd `3 ≤ j ≤ sqrtBound x` divides `x`. -/
theorem trialLoop_from_three (x : Int) (fuel : Nat) (hf : loopFuel x ≤ fuel) :
    ((trialLoop x fuel 3).outcome = .ok true ∧
        ∀ k : Nat, 3 + 2 * (k : Int) ≤ sqrtBound x → ¬ (3 + 2 * (k : Int)) ∣ x) ∨
    ((trialLoop x fuel 3).outcome = .ok false ∧
        ∃ k : Nat, 3 + 2 * (k : Int) ≤ sqrtBound x ∧ (3 + 2 * (k : Int)) ∣ x) := by
  unfold loopFuel at hf
  exact trialLoop_outcome x fuel 3 (le_refl _) (by omega)

/-- The function `CheckPrime` returns a value on every `x`, with every amount of
fuel from `loopFuel x` on. -/
theorem CheckPrimeFuel_ok (x acc : Int) (fuel : Nat) (hf : loopFuel x ≤ fuel) :
    ∃ t, CheckPrimeFuel fuel x acc = .ok t := by
  unfold CheckPrimeFuel
  split_ifs
  · exact ⟨_, rfl⟩
  · exact ⟨_, rfl⟩
  · exact ⟨_, rfl⟩
  · rcases trialLoop_from_three x fuel hf with ⟨ho, _⟩ | ⟨ho, _⟩
    · rw [ho]; exact ⟨_, rfl⟩
    · rw [ho]; exact ⟨_, rfl⟩

theorem CheckPrime_ok (x acc : Int) : ∃ t, CheckPrime x acc = .ok t :=
  CheckPrimeFuel_ok x acc (loopFuel x) (le_refl _)

/-! ## CheckPrime against primality -/

theorem odd_trial_iff_prime (n : Nat) (h3 : 3 ≤ n) (hodd : n % 2 = 1) :
    Nat.Prime n ↔
      ∀ k : Nat, (3 : Int) + 2 * (k : Int) ≤ (Nat.sqrt n : Int) →
        ¬ ((3 : Int) + 2 * (k : Int)) ∣ (n : Int) := by
  constructor
  · intro hp k hk hdvd
    have e : (3 : Int) + 2 * (k : Int) = ((3 + 2 * k : Nat) : Int) := by push_cast; ring
    rw [e] at hk hdvd
    exact (Nat.prime_def_le_sqrt.mp hp).2 (3 + 2 * k) (by omega) (by exact_mod_cast hk)
      (Int.natCast_dvd_natCast.mp hdvd)
  · intro h
    refine Nat.prime_def_le_sqrt.mpr ⟨by omega, ?_⟩
    intro m hm2 hms hdvd
    have hmodd : m % 2 = 1 := by
      by_contra hne
      have h2 : 2 ∣ n := Nat.dvd_trans (Nat.dvd_of_mod_eq_zero (by omega)) hdvd
      omega
    have e : (3 : Int) + 2 * (((m - 3) / 2 : Nat) : Int) = (m : Int) := by omega
    apply h ((m - 3) / 2)
    · rw [e]; exact_mod_cast hms
    · rw [e]; exact Int.natCast_dvd_natCast.mpr hdvd

/-- Trial division by the odd numbers from 3 up to any bound between the floor
of the square root and the number itself decides primality of an odd number. -/
theorem odd_trial_iff_prime_of_bound (n : Nat) (b : Int) (h3 : 3 ≤ n) (hodd : n % 2 = 1)
    (hlo : (Nat.sqrt n : Int) ≤ b) (hhi : b < (n : Int)) :
    Nat.Prime n ↔
      ∀ k : Nat, (3 : Int) + 2 * (k : Int) ≤ b → ¬ ((3 : Int) + 2 * (k : Int)) ∣ (n : Int) := by
  constructor
  · intro hp k hk hdvd
    have e : (3 : Int) + 2 * (k : Int) = ((3 + 2 * k : Nat) : Int) := by push_cast; ring
    rw [e] at hk hdvd
    have hd : 3 + 2 * k ∣ n := Int.natCast_dvd_natCast.mp hdvd
    rcases (Nat.dvd_prime hp).mp hd with h | h <;> omega
  · intro h
    exact (odd_trial_iff_prime n h3 hodd).mpr (fun k hk => h k (le_trans hk hlo))

/-- The value `CheckPrime` leaves in the accumulator, for every amount of fuel
from `loopFuel x` on. -/
theorem CheckPrimeFuel_eq (x acc : Int) (fuel : Nat) (hx : x ≤ MaxInt64)
    (hf : loopFuel x ≤ fuel) :
    CheckPrimeFuel fuel x acc = .ok (if Nat.Prime x.toNat then AddInt64 acc 1 else acc) := by
  unfold CheckPrimeFuel
  by_cases h1 : x < 2
  · have hnp : ¬ Nat.Prime x.toNat := fun hp => by have := hp.two_le; omega
    rw [if_pos h1, if_neg hnp]
  rw [if_neg h1]
  by_cases h2 : x = 2
  · subst h2
    rw [if_pos rfl, if_pos (show Nat.Prime (Int.toNat 2) from Nat.prime_two)]
  rw [if_neg h2]
  have hx3 : 3 ≤ x := by omega
  have hxn : ((x.toNat : Nat) : Int) = x := Int.toNat_of_nonneg (by omega)
  by_cases h3 : Int.tmod x 2 = 0
  · have hnp : ¬ Nat.Prime x.toNat := by
      intro hp
      have hd : (2 : Int) ∣ x := Int.dvd_of_tmod_eq_zero h3
      have hd2 : 2 ∣ x.toNat := by
        have : ((2 : Nat) : Int) ∣ ((x.toNat : Nat) : Int) := by rw [hxn]; exact_mod_cast hd
        exact Int.natCast_dvd_natCast.mp this
      rcases (Nat.dvd_prime hp).mp hd2 with h | h <;> omega
    rw [if_pos h3, if_neg hnp]
  rw [if_neg h3]
  have hodd : x.toNat % 2 = 1 := by
    by_contra hne
    apply h3
    apply Int.tmod_eq_zero_of_dvd
    have : (2 : Nat) ∣ x.toNat := Nat.dvd_of_mod_eq_zero (by omega)
    have h' : ((2 : Nat) : Int) ∣ ((x.toNat : Nat) : Int) := Int.natCast_dvd_natCast.mpr this
    rw [hxn] at h'
    exact_mod_cast h'
  obtain ⟨hlo, hhi⟩ := sqrtBound_spec x hx3 hx
  have key := odd_trial_iff_prime_of_bound x.toNat (sqrtBound x) (by omega) hodd hlo
    (by rw [hxn]; exact hhi)
  rw [hxn] at key
  rcases trialLoop_from_three x fuel hf with ⟨ho, hall⟩ | ⟨ho, hex⟩
  · rw [ho, if_pos (key.mpr hall)]
  · have hnp : ¬ Nat.Prime x.toNat := by
      intro hp
      obtain ⟨k, hk, hd⟩ := hex
      exact key.mp hp k hk hd
    rw [ho, if_neg hnp]

theorem CheckPrime_eq (x acc : Int) (hx : x ≤ MaxInt64) :
    CheckPrime x acc = .ok (if Nat.Prime x.toNat then AddInt64 acc 1 else acc) :=
  CheckPrimeFuel_eq x acc (loopFuel x) hx (le_refl _)

/-! ## Steps of the workers -/

theorem stepWorker_cases (max : Int) (s : State) (w : Nat) (s' : State)
    (h : stepWorker max s w = some s') :
    (s.workers.get? w = some .claim ∧
      s' = { s with
        start := AddInt64 s.start 1
        workers := s.workers.set w (.test (AddInt64 s.start 1))
        log := s.log ++ [.claimed w (AddInt64 s.start 1)] }) ∨
    (∃ x, s.workers.get? w = some (.test x) ∧ max < x ∧
      s' = { s with workers := s.workers.set w .done, log := s.log ++ [.exited w x] }) ∨
    (∃ x, s.workers.get? w = some (.test x) ∧ x ≤ max ∧
      s' = { s with workers := s.workers.set w (.check x) }) ∨
    (∃ x t, s.workers.get? w = some (.check x) ∧ CheckPrime x s.totalPrime = .ok t ∧
      s' = { s with
        totalPrime := t
        workers := s.workers.set w .claim
        log := s.log ++ [.evaluated w x] }) := by
  unfold stepWorker at h
  split at h
  · exact absurd h (by simp)
  · next hg =>
    left
    exact ⟨hg, (Option.some.inj h).symm⟩
  · next x hg =>
    by_cases hx : x > max
    · rw [if_pos hx] at h
      right; left
      exact ⟨x, hg, hx, (Option.some.inj h).symm⟩
    · rw [if_neg hx] at h
      right; right; left
      exact ⟨x, hg, by omega, (Option.some.inj h).symm⟩
  · next x hg =>
    obtain ⟨t, ht⟩ := CheckPrime_ok x s.totalPrime
    rw [ht] at h
    right; right; right
    exact ⟨x, t, hg, ht, (Option.some.inj h).symm⟩
  · exact absurd h (by simp)
  · exact absurd h (by simp)

theorem sum_map_set {M : Type} [AddCommMonoid M] (f : Pc → M) :
    ∀ (l : List Pc) (w : Nat) (q p : Pc), l.get? w = some q →
      ((l.set w p).map f).sum + f q = (l.map f).sum + f p := by
  intro l
  induction l with
  | nil => intro w q p h; simp at h
  | cons a l ih =>
    intro w q p h
    cases w with
    | zero =>
      simp at h
      subst h
      simp only [List.set_cons_zero, List.map_cons, List.sum_cons]
      abel
    | succ w =>
      simp at h
      have := ih w q p (by simpa using h)
      simp only [List.set_cons_succ, List.map_cons, List.sum_cons]
      rw [add_assoc, this, add_assoc]

theorem sum_map_le_length (f : Pc → Nat) (hf : ∀ p, f p ≤ 1) :
    ∀ l : List Pc, (l.map f).sum ≤ l.length := by
  intro l
  induction l with
  | nil => simp
  | cons a l ih =>
    simp only [List.map_cons, List.sum_cons, List.length_cons]
    have := hf a
    omega

theorem mem_of_get? {l : List Pc} {w : Nat} {q : Pc} (h : l.get? w = some q) : q ∈ l :=
  List.get?_mem h

theorem isDone_le_one (p : Pc) : isDone p ≤ 1 := by
  cases p <;> simp [isDone]

theorem leaving_le_one (max : Int) (p : Pc) : leaving max p ≤ 1 := by
  cases p <;> simp [leaving]
  split_ifs <;> omega

/-! ## The integers 1..n -/

theorem upTo_succ (n : Nat) : upTo (n + 1) = upTo n ++ [((n : Int) + 1)] := by
  unfold upTo
  rw [List.range'_concat, List.map_append]
  simp
  omega

theorem length_upTo (n : Nat) : (upTo n).length = n := by
  simp [upTo]

theorem mem_upTo (n : Nat) (x : Int) : x ∈ upTo n ↔ 1 ≤ x ∧ x ≤ n := by
  unfold upTo
  simp only [List.mem_map, List.mem_range'_1]
  constructor
  · rintro ⟨k, hk, rfl⟩
    omega
  · intro h
    exact ⟨x.toNat, by omega, by omega⟩

theorem filter_le_upTo (m : Nat) : ∀ n : Nat,
    (upTo n).filter (fun x => decide (x ≤ (m : Int))) = upTo (min n m) := by
  intro n
  induction n with
  | zero => simp [upTo]
  | succ n ih =>
    rw [upTo_succ, List.filter_append, ih]
    by_cases h : n + 1 ≤ m
    · have h1 : min n m = n := by omega
      have h2 : min (n + 1) m = n + 1 := by omega
      rw [h1, h2, upTo_succ]
      simp
      omega
    · have h1 : min (n + 1) m = min n m := by omega
      rw [h1]
      simp
      omega

theorem countP_prime_upTo (n : Nat) :
    (upTo n).countP (fun x => decide (Nat.Prime x.toNat)) = primeCount n := by
  unfold upTo primeCount
  rw [List.countP_map]
  simp [Function.comp_def]

/-! ## The invariant is kept by every step -/

theorem forall_mem_set {P : Pc → Prop} {l : List Pc} (w : Nat) {q : Pc}
    (hl : ∀ p ∈ l, P p) (hq : P q) : ∀ p ∈ l.set w q, P p := by
  intro p hp
  rcases List.mem_or_eq_of_mem_set hp with h | h
  · exact hl p h
  · rw [h]; exact hq

theorem Inv_start_le (max : Int) (conc : Nat) (s : State) (hinv : Inv max conc s) :
    s.start ≤ max + conc := by
  have h1 := hinv.bound
  have h2 := sum_map_le_length (leaving max) (leaving_le_one max) s.workers
  rw [hinv.len] at h2
  omega

theorem Inv_length_claimed (max : Int) (conc : Nat) (s : State) (hinv : Inv max conc s) :
    ((evaluatedValues s.log).length : Int) +
        (Multiset.card (s.workers.map heldM).sum : Int) +
        ((exitValues s.log).length : Int) = s.start := by
  have h1 := congrArg Multiset.card hinv.balance
  rw [hinv.claimed_eq] at h1
  simp only [Multiset.coe_card, Multiset.card_add, length_upTo] at h1
  have h2 := hinv.start_nonneg
  omega

theorem Inv_step (max : Int) (conc : Nat) (hc : max + conc ≤ MaxInt64)
    (s s' : State) (w : Nat) (hinv : Inv max conc s) (hstep : stepWorker max s w = some s') :
    Inv max conc s' := by
  have hsn := hinv.start_nonneg
  have hmin : MinInt64 ≤ s.start := by unfold MinInt64; omega
  rcases stepWorker_cases max s w s' hstep with
    ⟨hg, rfl⟩ | ⟨x, hg, hx, rfl⟩ | ⟨x, hg, hx, rfl⟩ | ⟨x, t, hg, ht, rfl⟩
  · -- the claim `x := atomic.AddInt64(start, 1)`
    have hL := sum_map_set (leaving max) s.workers w .claim .done hg
    have hL1 := sum_map_le_length (leaving max) (leaving_le_one max) (s.workers.set w .done)
    rw [List.length_set, hinv.len] at hL1
    simp only [leaving] at hL
    have hb := hinv.bound
    have hlt : s.start < MaxInt64 := by omega
    have hadd : AddInt64 s.start 1 = s.start + 1 := AddInt64_one_of_lt _ hmin hlt
    have htn : (s.start + 1).toNat = s.start.toNat + 1 := by omega
    have hcast : ((s.start.toNat : Nat) : Int) = s.start := Int.toNat_of_nonneg hsn
    refine ⟨?_, ?_, ?_, ?_, ?_, ?_, ?_, ?_, ?_, ?_, ?_⟩
    · simp [hinv.len]
    · show 0 ≤ AddInt64 s.start 1
      rw [hadd]; omega
    · show claimedValues (s.log ++ [Event.claimed w (AddInt64 s.start 1)]) =
        upTo (AddInt64 s.start 1).toNat
      rw [hadd, htn, upTo_succ, hcast, ← hinv.claimed_eq]
      simp [claimedValues, List.filterMap_append]
    · have hH := sum_map_set heldM s.workers w .claim
        (.test (AddInt64 s.start 1)) hg
      simp only [heldM, held, Multiset.coe_nil, add_zero] at hH
      show (↑(claimedValues (s.log ++ [Event.claimed w (AddInt64 s.start 1)])) : Multiset Int) =
        ↑(evaluatedValues (s.log ++ [Event.claimed w (AddInt64 s.start 1)])) +
          ((s.workers.set w (.test (AddInt64 s.start 1))).map
            heldM).sum +
          ↑(exitValues (s.log ++ [Event.claimed w (AddInt64 s.start 1)]))
      have e1 : claimedValues (s.log ++ [Event.claimed w (AddInt64 s.start 1)]) =
          claimedValues s.log ++ [AddInt64 s.start 1] := by
        simp [claimedValues, List.filterMap_append]
      have e2 : evaluatedValues (s.log ++ [Event.claimed w (AddInt64 s.start 1)]) =
          evaluatedValues s.log := by
        simp [evaluatedValues, List.filterMap_append]
      have e3 : exitValues (s.log ++ [Event.claimed w (AddInt64 s.start 1)]) =
          exitValues s.log := by
        simp [exitValues, List.filterMap_append]
      rw [e1, e2, e3, hH, ← Multiset.coe_add, hinv.balance]
      abel
    · intro y hy
      apply hinv.evaluated_le
      simpa [evaluatedValues, List.filterMap_append] using hy
    · intro y hy
      apply hinv.exit_gt
      simpa [exitValues, List.filterMap_append] using hy
    · intro y hy
      rcases List.mem_or_eq_of_mem_set hy with h | h
      · exact hinv.check_le y h
      · exact absurd h (by simp)
    · show s.totalPrime = _
      rw [hinv.total]
      simp [evaluatedValues, List.filterMap_append]
    · have hD := sum_map_set isDone s.workers w .claim (.test (AddInt64 s.start 1)) hg
      simp only [isDone, add_zero] at hD
      show (exitValues (s.log ++ [Event.claimed w (AddInt64 s.start 1)])).length = _
      rw [hD, ← hinv.exits_len]
      simp [exitValues, List.filterMap_append]
    · have hB := sum_map_set (leaving max) s.workers w .claim (.test (AddInt64 s.start 1)) hg
      simp only [leaving, add_zero] at hB
      show AddInt64 s.start 1 ≤ max + _
      dsimp only
      rw [hadd] at hB ⊢
      split_ifs at hB with h1
      · omega
      · omega
    · intro f
      intro hmem
      rcases List.mem_or_eq_of_mem_set hmem with h | h
      · exact hinv.no_panic f h
      · exact absurd h (by simp)
  · -- the test `x > max` succeeds: `break`
    refine ⟨?_, ?_, ?_, ?_, ?_, ?_, ?_, ?_, ?_, ?_, ?_⟩
    · simp [hinv.len]
    · exact hsn
    · show claimedValues (s.log ++ [Event.exited w x]) = upTo s.start.toNat
      rw [← hinv.claimed_eq]
      simp [claimedValues, List.filterMap_append]
    · have hH := sum_map_set heldM s.workers w (.test x)
        .done hg
      simp only [heldM, held, Multiset.coe_nil, add_zero] at hH
      show (↑(claimedValues (s.log ++ [Event.exited w x])) : Multiset Int) =
        ↑(evaluatedValues (s.log ++ [Event.exited w x])) +
          ((s.workers.set w .done).map heldM).sum +
          ↑(exitValues (s.log ++ [Event.exited w x]))
      have e1 : claimedValues (s.log ++ [Event.exited w x]) = claimedValues s.log := by
        simp [claimedValues, List.filterMap_append]
      have e2 : evaluatedValues (s.log ++ [Event.exited w x]) = evaluatedValues s.log := by
        simp [evaluatedValues, List.filterMap_append]
      have e3 : exitValues (s.log ++ [Event.exited w x]) = exitValues s.log ++ [x] := by
        simp [exitValues, List.filterMap_append]
      rw [e1, e2, e3, ← Multiset.coe_add, hinv.balance, ← hH]
      abel
    · intro y hy
      apply hinv.evaluated_le
      simpa [evaluatedValues, List.filterMap_append] using hy
    · intro y hy
      have : y ∈ exitValues s.log ∨ y = x := by
        simpa [exitValues, List.filterMap_append] using hy
      rcases this with h | h
      · exact hinv.exit_gt y h
      · rw [h]; exact hx
    · intro y hy
      rcases List.mem_or_eq_of_mem_set hy with h | h
      · exact hinv.check_le y h
      · exact absurd h (by simp)
    · show s.totalPrime = _
      rw [hinv.total]
      simp [evaluatedValues, List.filterMap_append]
    · have hD := sum_map_set isDone s.workers w (.test x) .done hg
      simp only [isDone, add_zero] at hD
      show (exitValues (s.log ++ [Event.exited w x])).length = _
      rw [hD, ← hinv.exits_len]
      simp [exitValues, List.filterMap_append]
    · have hB := sum_map_set (leaving max) s.workers w (.test x) .done hg
      simp only [leaving, if_pos hx] at hB
      have hb := hinv.bound
      show s.start ≤ max + _
      dsimp only
      omega
    · intro f
      intro hmem
      rcases List.mem_or_eq_of_mem_set hmem with h | h
      · exact hinv.no_panic f h
      · exact absurd h (by simp)
  · -- the test `x > max` fails: on to `CheckPrime`
    refine ⟨?_, ?_, ?_, ?_, ?_, ?_, ?_, ?_, ?_, ?_, ?_⟩
    · simp [hinv.len]
    · exact hsn
    · exact hinv.claimed_eq
    · have hH := sum_map_set heldM s.workers w (.test x)
        (.check x) hg
      simp only [heldM, held] at hH
      have hH' := add_right_cancel hH
      show (↑(claimedValues s.log) : Multiset Int) =
        ↑(evaluatedValues s.log) +
          ((s.workers.set w (.check x)).map heldM).sum +
          ↑(exitValues s.log)
      rw [hH']
      exact hinv.balance
    · exact hinv.evaluated_le
    · exact hinv.exit_gt
    · intro y hy
      rcases List.mem_or_eq_of_mem_set hy with h | h
      · exact hinv.check_le y h
      · have : y = x := by simpa using h
        omega
    · exact hinv.total
    · have hD := sum_map_set isDone s.workers w (.test x) (.check x) hg
      simp only [isDone, add_zero] at hD
      show (exitValues s.log).length = _
      rw [hD]
      exact hinv.exits_len
    · have hB := sum_map_set (leaving max) s.workers w (.test x) (.check x) hg
      simp only [leaving, if_neg (show ¬ max < x by omega), add_zero] at hB
      show s.start ≤ max + _
      rw [hB]
      exact hinv.bound
    · intro f
      intro hmem
      rcases List.mem_or_eq_of_mem_set hmem with h | h
      · exact hinv.no_panic f h
      · exact absurd h (by simp)
  · -- the call `CheckPrime(x, totalPrime)`
    have hH := sum_map_set heldM s.workers w (.check x)
      .claim hg
    simp only [heldM, held, Multiset.coe_nil, add_zero] at hH
    have hxle : x ≤ max := hinv.check_le x (mem_of_get? hg)
    have htv : t = if Nat.Prime x.toNat then AddInt64 s.totalPrime 1 else s.totalPrime := by
      rw [CheckPrime_eq x s.totalPrime (by omega)] at ht
      exact (Except.ok.inj ht).symm
    subst htv
    have e1 : claimedValues (s.log ++ [Event.evaluated w x]) = claimedValues s.log := by
      simp [claimedValues, List.filterMap_append]
    have e2 : evaluatedValues (s.log ++ [Event.evaluated w x]) = evaluatedValues s.log ++ [x] := by
      simp [evaluatedValues, List.filterMap_append]
    have e3 : exitValues (s.log ++ [Event.evaluated w x]) = exitValues s.log := by
      simp [exitValues, List.filterMap_append]
    refine ⟨?_, ?_, ?_, ?_, ?_, ?_, ?_, ?_, ?_, ?_, ?_⟩
    · simp [hinv.len]
    · exact hsn
    · show claimedValues (s.log ++ [Event.evaluated w x]) = upTo s.start.toNat
      rw [e1]; exact hinv.claimed_eq
    · show (↑(claimedValues (s.log ++ [Event.evaluated w x])) : Multiset Int) =
        ↑(evaluatedValues (s.log ++ [Event.evaluated w x])) +
          ((s.workers.set w .claim).map heldM).sum +
          ↑(exitValues (s.log ++ [Event.evaluated w x]))
      rw [e1, e2, e3, ← Multiset.coe_add, hinv.balance, ← hH]
      abel
    · intro y hy
      change y ∈ evaluatedValues (s.log ++ [Event.evaluated w x]) at hy
      rw [e2] at hy
      rcases List.mem_append.mp hy with h | h
      · exact hinv.evaluated_le y h
      · have : y = x := by simpa using h
        omega
    · intro y hy
      change y ∈ exitValues (s.log ++ [Event.evaluated w x]) at hy
      rw [e3] at hy
      exact hinv.exit_gt y hy
    · intro y hy
      rcases List.mem_or_eq_of_mem_set hy with h | h
      · exact hinv.check_le y h
      · exact absurd h (by simp)
    · show (if Nat.Prime x.toNat then AddInt64 s.totalPrime 1 else s.totalPrime) =
        ((evaluatedValues (s.log ++ [Event.evaluated w x])).countP
          fun x => Nat.Prime x.toNat : Nat)
      rw [e2, List.countP_append]
      have hlen := Inv_length_claimed max conc s hinv
      rw [← hH] at hlen
      simp only [Multiset.card_add, Multiset.coe_card, List.length_singleton] at hlen
      have hsle := Inv_start_le max conc s hinv
      have hcp := List.countP_le_length (fun x => decide (Nat.Prime x.toNat))
        (l := evaluatedValues s.log)
      have ht := hinv.total
      by_cases hp : Nat.Prime x.toNat
      · rw [if_pos hp, AddInt64_one_of_lt _ (by unfold MinInt64; omega) (by omega), ht]
        simp [hp]
      · rw [if_neg hp, ht]
        simp [hp]
    · have hD := sum_map_set isDone s.workers w (.check x) .claim hg
      simp only [isDone, add_zero] at hD
      show (exitValues (s.log ++ [Event.evaluated w x])).length = _
      rw [hD, e3]
      exact hinv.exits_len
    · have hB := sum_map_set (leaving max) s.workers w (.check x) .claim hg
      simp only [leaving, add_zero] at hB
      show s.start ≤ max + _
      rw [hB]
      exact hinv.bound
    · intro f
      intro hmem
      rcases List.mem_or_eq_of_mem_set hmem with h | h
      · exact hinv.no_panic f h
      · exact absurd h (by simp)

/-! ## The invariant holds along every run -/

theorem sum_heldM_replicate (n : Nat) : ((List.replicate n Pc.claim).map heldM).sum = 0 := by
  induction n with
  | zero => simp
  | succ n ih =>
    rw [List.replicate_succ, List.map_cons, List.sum_cons, ih]
    simp [heldM, held]

theorem sum_isDone_replicate (n : Nat) : ((List.replicate n Pc.claim).map isDone).sum = 0 := by
  induction n with
  | zero => simp
  | succ n ih =>
    rw [List.replicate_succ, List.map_cons, List.sum_cons, ih]
    simp [isDone]

theorem Inv_init (max : Int) (conc : Nat) (h0 : 0 ≤ max) : Inv max conc (initState conc) := by
  refine ⟨?_, ?_, ?_, ?_, ?_, ?_, ?_, ?_, ?_, ?_, ?_⟩
  · simp [initState]
  · simp [initState]
  · simp [initState, claimedValues, upTo]
  · show (↑(claimedValues []) : Multiset Int) =
      ↑(evaluatedValues []) + ((List.replicate conc Pc.claim).map heldM).sum + ↑(exitValues [])
    rw [sum_heldM_replicate]
    simp [claimedValues, evaluatedValues, exitValues]
  · intro x hx
    simp [initState, evaluatedValues] at hx
  · intro x hx
    simp [initState, exitValues] at hx
  · intro x hx
    simp [initState] at hx
  · simp [initState, evaluatedValues]
  · show (exitValues []).length = ((List.replicate conc Pc.claim).map isDone).sum
    rw [sum_isDone_replicate]
    simp [exitValues]
  · show (0 : Int) ≤ max + _
    omega
  · intro f hf
    simp [initState] at hf

theorem Inv_run (max : Int) (conc : Nat) (hc : max + conc ≤ MaxInt64) :
    ∀ (sched : List Nat) (s s' : State), Inv max conc s → run max s sched = some s' →
      Inv max conc s' := by
  intro sched
  induction sched with
  | nil =>
    intro s s' hinv hrun
    simp only [run, Option.some.injEq] at hrun
    rw [← hrun]; exact hinv
  | cons w ws ih =>
    intro s s' hinv hrun
    rw [run] at hrun
    cases hst : stepWorker max s w with
    | none => rw [hst] at hrun; exact absurd hrun (by simp)
    | some s1 =>
      rw [hst] at hrun
      exact ih s1 s' (Inv_step max conc hc s s1 w hinv hst) hrun

theorem Inv_reachable (max : Int) (conc : Nat) (h0 : 0 ≤ max) (hc : max + conc ≤ MaxInt64)
    (sched : List Nat) (s : State) (hrun : run max (initState conc) sched = some s) :
    Inv max conc s :=
  Inv_run max conc hc sched _ s (Inv_init max conc h0) hrun

/-! ## What the invariant says about the values -/

theorem sum_heldM_of_allDone (l : List Pc) (h : ∀ pc ∈ l, pc = Pc.done) :
    (l.map heldM).sum = 0 := by
  induction l with
  | nil => simp
  | cons a l ih =>
    have ha : a = Pc.done := h a (by simp)
    have hl : ∀ pc ∈ l, pc = Pc.done := fun pc hpc => h pc (by simp [hpc])
    simp [ha, ih hl, heldM, held]

theorem sum_isDone_of_allDone (l : List Pc) (h : ∀ pc ∈ l, pc = Pc.done) :
    (l.map isDone).sum = l.length := by
  induction l with
  | nil => simp
  | cons a l ih =>
    have ha : a = Pc.done := h a (by simp)
    have hl : ∀ pc ∈ l, pc = Pc.done := fun pc hpc => h pc (by simp [hpc])
    simp [ha, ih hl, isDone]
    omega

/-- The values at most `max` among those claimed so far. -/
theorem Inv_filter (max : Int) (conc : Nat) (h0 : 0 ≤ max) (s : State) (hinv : Inv max conc s) :
    (↑(upTo (min s.start.toNat max.toNat)) : Multiset Int) =
      ↑(evaluatedValues s.log) +
        Multiset.filter (fun x => x ≤ max) (s.workers.map heldM).sum := by
  have hb := congrArg (Multiset.filter (fun x => x ≤ max)) hinv.balance
  rw [Multiset.filter_add, Multiset.filter_add, hinv.claimed_eq] at hb
  have hE : Multiset.filter (fun x => x ≤ max) (↑(evaluatedValues s.log) : Multiset Int) =
      ↑(evaluatedValues s.log) := by
    apply Multiset.filter_eq_self.mpr
    intro x hx
    exact hinv.evaluated_le x (by simpa using hx)
  have hX : Multiset.filter (fun x => x ≤ max) (↑(exitValues s.log) : Multiset Int) = 0 := by
    apply Multiset.filter_eq_nil.mpr
    intro x hx
    have := hinv.exit_gt x (by simpa using hx)
    omega
  have hC : Multiset.filter (fun x => x ≤ max) (↑(upTo s.start.toNat) : Multiset Int) =
      ↑(upTo (min s.start.toNat max.toNat)) := by
    rw [Multiset.filter_coe, ← filter_le_upTo max.toNat s.start.toNat]
    have hm : ((max.toNat : Nat) : Int) = max := Int.toNat_of_nonneg h0
    rw [hm]
  rw [hE, hX, hC, add_zero] at hb
  exact hb

theorem Inv_total_le (max : Int) (conc : Nat) (h0 : 0 ≤ max) (s : State)
    (hinv : Inv max conc s) : 0 ≤ s.totalPrime ∧ s.totalPrime ≤ min s.start max := by
  have hf := congrArg Multiset.card (Inv_filter max conc h0 s hinv)
  simp only [Multiset.coe_card, Multiset.card_add, length_upTo] at hf
  have hcp := List.countP_le_length (fun x => decide (Nat.Prime x.toNat))
    (l := evaluatedValues s.log)
  have ht := hinv.total
  have hsn := hinv.start_nonneg
  omega

/-- The facts at the end of a run: all workers have left their loops. -/
theorem Inv_final (max : Int) (conc : Nat) (h0 : 0 ≤ max) (h1 : 1 ≤ conc) (s : State)
    (hinv : Inv max conc s) (hdone : allDone s) :
    (evaluatedValues s.log).Perm (upTo max.toNat) ∧ s.start = max + conc ∧
      s.totalPrime = primeCount max ∧ claimedValues s.log = upTo (max.toNat + conc) := by
  have hH := sum_heldM_of_allDone s.workers hdone
  have hD := sum_isDone_of_allDone s.workers hdone
  have hX := hinv.exits_len
  rw [hD, hinv.len] at hX
  have hsn := hinv.start_nonneg
  have hm : ((max.toNat : Nat) : Int) = max := Int.toNat_of_nonneg h0
  -- some worker left on a value above `max`, and that value was claimed
  have hlt : max < s.start := by
    obtain ⟨x, hx⟩ := List.exists_mem_of_length_pos (l := exitValues s.log) (by omega)
    have hgt := hinv.exit_gt x hx
    have hxC : x ∈ (↑(claimedValues s.log) : Multiset Int) := by
      rw [hinv.balance]
      simp [hx]
    rw [hinv.claimed_eq] at hxC
    have := (mem_upTo _ x).mp (by simpa using hxC)
    omega
  have hf := Inv_filter max conc h0 s hinv
  rw [hH, Multiset.filter_zero, add_zero, show min s.start.toNat max.toNat = max.toNat by omega]
    at hf
  have hperm : (evaluatedValues s.log).Perm (upTo max.toNat) :=
    (Multiset.coe_eq_coe.mp hf).symm
  have hlen := Inv_length_claimed max conc s hinv
  rw [hH, hperm.length_eq, length_upTo, hX] at hlen
  simp only [Multiset.card_zero, Nat.cast_zero, add_zero] at hlen
  refine ⟨hperm, by omega, ?_, ?_⟩
  · rw [hinv.total, hperm.countP_eq, countP_prime_upTo, hm]
  · rw [hinv.claimed_eq]
    congr 1
    omega

/-! ## Termination -/

theorem stepsLeft_step (max : Int) (h0 : MinInt64 ≤ max) (h1 : max < MaxInt64)
    (s s' : State) (w : Nat) (hstep : stepWorker max s w = some s') :
    stepsLeft max s' < stepsLeft max s := by
  rcases stepWorker_cases max s w s' hstep with
    ⟨hg, rfl⟩ | ⟨x, hg, hx, rfl⟩ | ⟨x, hg, hx, rfl⟩ | ⟨x, t, hg, ht, rfl⟩
  · have hW := sum_map_set (weight max) s.workers w .claim (.test (AddInt64 s.start 1)) hg
    simp only [weight] at hW
    unfold stepsLeft
    dsimp only
    have hr := wrap64_range (s.start + 1)
    unfold claimsToExit
    unfold AddInt64 at hW ⊢
    unfold MinInt64 at h0 hr
    unfold MaxInt64 at h1 hr ⊢
    unfold wrap64 at hW hr ⊢
    split_ifs at hW ⊢ <;> omega
  · have hW := sum_map_set (weight max) s.workers w (.test x) .done hg
    simp only [weight, if_pos hx] at hW
    unfold stepsLeft
    dsimp only
    omega
  · have hW := sum_map_set (weight max) s.workers w (.test x) (.check x) hg
    simp only [weight, if_neg (show ¬ max < x by omega)] at hW
    unfold stepsLeft
    dsimp only
    omega
  · have hW := sum_map_set (weight max) s.workers w (.check x) .claim hg
    simp only [weight] at hW
    unfold stepsLeft
    dsimp only
    omega

theorem stepsLeft_run (max : Int) (h0 : MinInt64 ≤ max) (h1 : max < MaxInt64) :
    ∀ (sched : List Nat) (s s' : State), run max s sched = some s' →
      sched.length + stepsLeft max s' ≤ stepsLeft max s := by
  intro sched
  induction sched with
  | nil =>
    intro s s' hrun
    simp only [run, Option.some.injEq] at hrun
    rw [← hrun]; simp
  | cons w ws ih =>
    intro s s' hrun
    rw [run] at hrun
    cases hst : stepWorker max s w with
    | none => rw [hst] at hrun; exact absurd hrun (by simp)
    | some s1 =>
      rw [hst] at hrun
      have h2 := ih s1 s' hrun
      have h3 := stepsLeft_step max h0 h1 s s1 w hst
      simp only [List.length_cons]
      omega

theorem sum_weight_replicate (max : Int) (n : Nat) :
    ((List.replicate n Pc.claim).map (weight max)).sum = n * (3 * (2 ^ 64 + 1)) := by
  induction n with
  | zero => simp
  | succ n ih =>
    rw [List.replicate_succ, List.map_cons, List.sum_cons, ih]
    simp only [weight]
    ring

theorem stepsLeft_init (max : Int) (conc : Nat) (h0 : 0 ≤ max) (h1 : max < MaxInt64) :
    stepsLeft max (initState conc) ≤ stepBound max conc := by
  unfold stepsLeft stepBound initState
  dsimp only
  rw [sum_weight_replicate]
  unfold claimsToExit
  unfold MaxInt64 at h1 ⊢
  split_ifs <;> omega

/-! ## No panic, no deadlock -/

theorem NoPanic_step (max : Int) (s s' : State) (w : Nat) (hn : NoPanic s)
    (hstep : stepWorker max s w = some s') : NoPanic s' := by
  intro f hmem
  rcases stepWorker_cases max s w s' hstep with
    ⟨_, rfl⟩ | ⟨x, _, _, rfl⟩ | ⟨x, _, _, rfl⟩ | ⟨x, t, _, _, rfl⟩ <;>
  · rcases List.mem_or_eq_of_mem_set hmem with h | h
    · exact hn f h
    · exact absurd h (by simp)

theorem NoPanic_run (max : Int) :
    ∀ (sched : List Nat) (s s' : State), NoPanic s → run max s sched = some s' → NoPanic s' := by
  intro sched
  induction sched with
  | nil =>
    intro s s' hn hrun
    simp only [run, Option.some.injEq] at hrun
    rw [← hrun]; exact hn
  | cons w ws ih =>
    intro s s' hn hrun
    rw [run] at hrun
    cases hst : stepWorker max s w with
    | none => rw [hst] at hrun; exact absurd hrun (by simp)
    | some s1 =>
      rw [hst] at hrun
      exact ih s1 s' (NoPanic_step max s s1 w hn hst) hrun

theorem NoPanic_init (conc : Nat) : NoPanic (initState conc) := by
  intro f hf
  simp [initState] at hf

/-- A worker that has neither left its loop nor panicked can take a step. -/
theorem stepWorker_progress (max : Int) (s : State) (w : Nat) (pc : Pc)
    (hg : s.workers.get? w = some pc) (hd : pc ≠ Pc.done) (hp : ∀ f, pc ≠ Pc.panicked f) :
    ∃ s', stepWorker max s w = some s' := by
  unfold stepWorker
  rw [hg]
  cases pc with
  | claim => exact ⟨_, rfl⟩
  | test x =>
    dsimp only
    split_ifs
    · exact ⟨_, rfl⟩
    · exact ⟨_, rfl⟩
  | check x =>
    dsimp only
    obtain ⟨t, ht⟩ := CheckPrime_ok x s.totalPrime
    rw [ht]
    exact ⟨_, rfl⟩
  | done => exact absurd rfl hd
  | panicked f => exact absurd rfl (hp f)

/-- A state in which no worker can step is one in which `wg.Wait()` returns. -/
theorem allDone_of_stuck (max : Int) (s : State) (hn : NoPanic s)
    (hstuck : ∀ w, stepWorker max s w = none) : allDone s := by
  intro pc hpc
  by_contra hd
  obtain ⟨w, hw⟩ := List.get?_of_mem hpc
  have hp : ∀ f, pc ≠ Pc.panicked f := fun f h => hn f (h ▸ hpc)
  obtain ⟨s', hs'⟩ := stepWorker_progress max s w pc hw hd hp
  rw [hstuck w] at hs'
  exact absurd hs' (by simp)

/-- From every state without a panic the workers can run on until all have left
their loops. -/
theorem exists_completion (max : Int) (h0 : MinInt64 ≤ max) (h1 : max < MaxInt64) :
    ∀ (n : Nat) (s : State), stepsLeft max s ≤ n → NoPanic s →
      ∃ rest s', run max s rest = some s' ∧ allDone s' := by
  intro n
  induction n with
  | zero =>
    intro s hle hn
    refine ⟨[], s, rfl, ?_⟩
    apply allDone_of_stuck max s hn
    intro w
    cases hst : stepWorker max s w with
    | none => rfl
    | some s1 =>
      have := stepsLeft_step max h0 h1 s s1 w hst
      omega
  | succ n ih =>
    intro s hle hn
    by_cases hstuck : ∀ w, stepWorker max s w = none
    · exact ⟨[], s, rfl, allDone_of_stuck max s hn hstuck⟩
    · push_neg at hstuck
      obtain ⟨w, hw⟩ := hstuck
      cases hst : stepWorker max s w with
      | none => exact absurd hst hw
      | some s1 =>
        have hlt := stepsLeft_step max h0 h1 s s1 w hst
        obtain ⟨rest, s', hrun, hdone⟩ := ih s1 (by omega) (NoPanic_step max s s1 w hn hst)
        refine ⟨w :: rest, s', ?_, hdone⟩
        rw [run, hst]
        exact hrun

/-! ## Rounds of one worker -/

theorem run_append (max : Int) :
    ∀ (a b : List Nat) (s s1 : State), run max s a = some s1 →
      run max s (a ++ b) = run max s1 b := by
  intro a
  induction a with
  | nil =>
    intro b s s1 h
    simp only [run, Option.some.injEq] at h
    rw [h]; rfl
  | cons w ws ih =>
    intro b s s1 h
    rw [run] at h
    rw [List.cons_append, run]
    cases hst : stepWorker max s w with
    | none => rw [hst] at h; exact absurd h (by simp)
    | some s2 =>
      rw [hst] at h
      exact ih b s2 s1 h

theorem get?_set_self (l : List Pc) (w : Nat) (q p : Pc) (hg : l.get? w = some q) :
    (l.set w p).get? w = some p := by
  have hlt : w < l.length := by
    by_contra h
    rw [List.get?_eq_none.mpr (by omega)] at hg
    exact absurd hg (by simp)
  simp [hlt]

theorem set_get?_self (l : List Pc) (w : Nat) (q : Pc) (hg : l.get? w = some q) :
    l.set w q = l := by
  induction l generalizing w with
  | nil => rfl
  | cons a l ih =>
    cases w with
    | zero =>
      simp at hg
      simp [hg]
    | succ w =>
      simp at hg
      simp only [List.set_cons_succ]
      rw [ih w (by simpa using hg)]

/-- One full round of worker `w` on a claimed value at most `max`: the claim,
the test and the call of `CheckPrime`. -/
theorem round_eval (max : Int) (s : State) (w : Nat) (hg : s.workers.get? w = some .claim)
    (hv : AddInt64 s.start 1 ≤ max) :
    run max s [w, w, w] = some
      { start := AddInt64 s.start 1
        totalPrime :=
          if Nat.Prime (AddInt64 s.start 1).toNat then AddInt64 s.totalPrime 1 else s.totalPrime
        workers := s.workers
        log := s.log ++ [Event.claimed w (AddInt64 s.start 1),
          Event.evaluated w (AddInt64 s.start 1)] } := by
  have h1 : stepWorker max s w = some
      { s with
        start := AddInt64 s.start 1
        workers := s.workers.set w (.test (AddInt64 s.start 1))
        log := s.log ++ [.claimed w (AddInt64 s.start 1)] } := by
    unfold stepWorker
    rw [hg]
  have g2 := get?_set_self s.workers w .claim (.test (AddInt64 s.start 1)) hg
  have h2 : stepWorker max
      { s with
        start := AddInt64 s.start 1
        workers := s.workers.set w (.test (AddInt64 s.start 1))
        log := s.log ++ [.claimed w (AddInt64 s.start 1)] } w = some
      { s with
        start := AddInt64 s.start 1
        workers := (s.workers.set w (.test (AddInt64 s.start 1))).set w
          (.check (AddInt64 s.start 1))
        log := s.log ++ [.claimed w (AddInt64 s.start 1)] } := by
    unfold stepWorker
    dsimp only
    rw [g2]
    dsimp only
    rw [if_neg (by omega)]
  have g3 := get?_set_self _ w _ (.check (AddInt64 s.start 1)) g2
  have h3 : stepWorker max
      { s with
        start := AddInt64 s.start 1
        workers := (s.workers.set w (.test (AddInt64 s.start 1))).set w
          (.check (AddInt64 s.start 1))
        log := s.log ++ [.claimed w (AddInt64 s.start 1)] } w = some
      { start := AddInt64 s.start 1
        totalPrime :=
          if Nat.Prime (AddInt64 s.start 1).toNat then AddInt64 s.totalPrime 1 else s.totalPrime
        workers := s.workers
        log := s.log ++ [Event.claimed w (AddInt64 s.start 1),
          Event.evaluated w (AddInt64 s.start 1)] } := by
    unfold stepWorker
    dsimp only
    rw [g3]
    dsimp only
    rw [CheckPrime_eq (AddInt64 s.start 1) _ (wrap64_range _).2]
    dsimp only
    rw [List.set_set, List.set_set, set_get?_self s.workers w .claim hg]
    simp
  rw [run, h1]
  dsimp only
  rw [run, h2]
  dsimp only
  rw [run, h3]
  rfl

/-- The last round of worker `w`: it claims a value above `max` and leaves. -/
theorem round_exit (max : Int) (s : State) (w : Nat) (hg : s.workers.get? w = some .claim)
    (hv : max < AddInt64 s.start 1) :
    run max s [w, w] = some
      { start := AddInt64 s.start 1
        totalPrime := s.totalPrime
        workers := s.workers.set w .done
        log := s.log ++ [Event.claimed w (AddInt64 s.start 1),
          Event.exited w (AddInt64 s.start 1)] } := by
  have h1 : stepWorker max s w = some
      { s with
        start := AddInt64 s.start 1
        workers := s.workers.set w (.test (AddInt64 s.start 1))
        log := s.log ++ [.claimed w (AddInt64 s.start 1)] } := by
    unfold stepWorker
    rw [hg]
  have g2 := get?_set_self s.workers w .claim (.test (AddInt64 s.start 1)) hg
  have h2 : stepWorker max
      { s with
        start := AddInt64 s.start 1
        workers := s.workers.set w (.test (AddInt64 s.start 1))
        log := s.log ++ [.claimed w (AddInt64 s.start 1)] } w = some
      { start := AddInt64 s.start 1
        totalPrime := s.totalPrime
        workers := s.workers.set w .done
        log := s.log ++ [Event.claimed w (AddInt64 s.start 1),
          Event.exited w (AddInt64 s.start 1)] } := by
    unfold stepWorker
    dsimp only
    rw [g2]
    dsimp only
    rw [if_pos hv, List.set_set]
    simp
  rw [run, h1]
  dsimp only
  rw [run, h2]
  rfl

theorem primesBetween_succ (c : Int) (n : Nat) :
    primesBetween c (n + 1) =
      primesBetween c n + if Nat.Prime (c + (n : Int) + 1).toNat then 1 else 0 := by
  unfold primesBetween
  rw [List.range'_concat, List.countP_append]
  have e : c + ((1 + 1 * n : Nat) : Int) = c + (n : Int) + 1 := by push_cast; ring
  simp only [List.countP_cons, List.countP_nil, e]
  simp

/-- Worker `w` alone takes `n` rounds on values at most `max`, none of which
makes the counter wrap around. -/
theorem solo_run (max : Int) (w : Nat) (hmax : max ≤ MaxInt64) :
    ∀ (n : Nat) (s : State), s.workers.get? w = some .claim → MinInt64 ≤ s.start →
      s.start + n ≤ max → MinInt64 ≤ s.totalPrime → s.totalPrime ≤ MaxInt64 →
      ∃ s', run max s (List.replicate (3 * n) w) = some s' ∧ s'.start = s.start + n ∧
        s'.workers = s.workers ∧ s'.totalPrime = wrap64 (s.totalPrime + primesBetween s.start n) ∧
        ∃ ext, s'.log = s.log ++ ext := by
  intro n
  induction n with
  | zero =>
    intro s hg hmin hle ht0 ht1
    refine ⟨s, rfl, by simp, rfl, ?_, [], by simp⟩
    simp [primesBetween, wrap64_of_range _ ht0 ht1]
  | succ n ih =>
    intro s hg hmin hle ht0 ht1
    obtain ⟨s1, hrun, hstart, hwork, htot, ext, hlog⟩ :=
      ih s hg hmin (by push_cast at hle; omega) ht0 ht1
    have hg1 : s1.workers.get? w = some .claim := by rw [hwork]; exact hg
    have hadd : AddInt64 s1.start 1 = s.start + n + 1 := by
      rw [hstart]
      apply AddInt64_one_of_lt
      · omega
      · push_cast at hle; omega
    have hround := round_eval max s1 w hg1 (by rw [hadd]; push_cast at hle; omega)
    have hsplit : List.replicate (3 * (n + 1)) w = List.replicate (3 * n) w ++ [w, w, w] := by
      rw [show 3 * (n + 1) = 3 * n + 3 by ring, List.replicate_add]
      rfl
    rw [hsplit, run_append max _ _ s s1 hrun, hround]
    refine ⟨_, rfl, ?_, hwork, ?_, ext ++ [Event.claimed w (AddInt64 s1.start 1),
      Event.evaluated w (AddInt64 s1.start 1)], ?_⟩
    · show AddInt64 s1.start 1 = s.start + ((n + 1 : Nat) : Int)
      rw [hadd]; push_cast; ring
    · show (if Nat.Prime (AddInt64 s1.start 1).toNat then AddInt64 s1.totalPrime 1
        else s1.totalPrime) = wrap64 (s.totalPrime + primesBetween s.start (n + 1))
      rw [hadd, primesBetween_succ, htot]
      unfold AddInt64 wrap64
      split_ifs
      · push_cast; omega
      · push_cast; omega
    · show s1.log ++ _ = s.log ++ _
      rw [hlog, List.append_assoc]

/-! ## A run in which the counter wraps around -/

theorem primeCount_eq_primesBetween (m : Int) : primeCount m = primesBetween 0 m.toNat := by
  unfold primeCount primesBetween
  simp

theorem primesBetween_le (c : Int) (n : Nat) : primesBetween c n ≤ n := by
  unfold primesBetween
  have := List.countP_le_length (fun (k : Nat) => decide (Nat.Prime (c + (k : Int)).toNat))
    (l := List.range' 1 n)
  simpa using this

theorem primesBetween_pos (c : Int) (n k : Nat) (h1 : 1 ≤ k) (h2 : k ≤ n)
    (hp : Nat.Prime (c + (k : Int)).toNat) : 1 ≤ primesBetween c n := by
  unfold primesBetween
  apply List.countP_pos_iff.mpr
  exact ⟨k, by rw [List.mem_range'_1]; omega, by simpa using hp⟩

theorem not_pairwise_lt (l A B : List Int) (a b : Int) (h : l = A ++ a :: B) (hb : b ∈ B)
    (hab : ¬ a < b) : ¬ l.Pairwise (· < ·) := by
  intro hp
  rw [h, List.pairwise_append] at hp
  exact hab (List.rel_of_pairwise_cons hp.2.1 hb)

theorem wrap64_twice_ne (p q : Nat) (hp : p ≤ 2 ^ 63 - 2) (hq : q ≤ 2 ^ 64 - 2) (hq1 : 1 ≤ q) :
    wrap64 (wrap64 ((0 : Int) + (p : Int)) + (q : Int)) ≠ (p : Int) := by
  unfold wrap64
  have h1 : ((0 : Int) + (p : Int) + 2 ^ 63) % 2 ^ 64 - 2 ^ 63 = p := by omega
  rw [h1]
  omega

/-- With `max = MaxInt64 - 1` and two workers there is a complete run in which
the first worker takes every value up to `MaxInt64` and the second one then
claims `MinInt64` and walks through the whole range once more. -/
theorem wrapped_run :
    ∃ sched s, run (MaxInt64 - 1) (initState 2) sched = some s ∧ allDone s ∧
      s.start = MaxInt64 ∧ s.totalPrime ≠ primeCount (MaxInt64 - 1) ∧
      MinInt64 ∈ evaluatedValues s.log ∧ ¬ (claimedValues s.log).Pairwise (· < ·) := by
  have hMax : MaxInt64 = 2 ^ 63 - 1 := rfl
  have hMin : MinInt64 = -(2 ^ 63) := rfl
  have hw : ∀ v : Int, wrap64 v = (v + 2 ^ 63) % 2 ^ 64 - 2 ^ 63 := fun _ => rfl
  have ha : ∀ v : Int, AddInt64 v 1 = wrap64 (v + 1) := fun _ => rfl
  -- the first worker alone, up to `max`
  obtain ⟨s1, hrun1, hstart1, hwork1, htot1, ext1, hlog1⟩ :=
    solo_run (MaxInt64 - 1) 0 (by omega) (2 ^ 63 - 2) (initState 2) rfl
      (by show MinInt64 ≤ (0 : Int); omega) (by show (0 : Int) + _ ≤ _; norm_num [hMax])
      (by show MinInt64 ≤ (0 : Int); omega) (by show (0 : Int) ≤ MaxInt64; omega)
  have hs1 : s1.start = 2 ^ 63 - 2 := by
    rw [hstart1]; show (0 : Int) + _ = _; norm_num
  have hadd1 : AddInt64 s1.start 1 = MaxInt64 := by
    rw [ha, hw, hs1, hMax]; norm_num
  -- the first worker claims `MaxInt64` and leaves
  have hrun2 := round_exit (MaxInt64 - 1) s1 0 (by rw [hwork1]; rfl) (by rw [hadd1]; omega)
  rw [hadd1] at hrun2
  -- the second worker claims `MinInt64`
  have hadd2 : AddInt64 MaxInt64 1 = MinInt64 := by
    rw [ha, hw, hMax, hMin]; norm_num
  have hrun3 := round_eval (MaxInt64 - 1)
    { start := MaxInt64, totalPrime := s1.totalPrime, workers := s1.workers.set 0 Pc.done,
      log := s1.log ++ [Event.claimed 0 MaxInt64, Event.exited 0 MaxInt64] } 1
    (by show (s1.workers.set 0 Pc.done).get? 1 = _; rw [hwork1]; rfl)
    (by show AddInt64 MaxInt64 1 ≤ _; rw [hadd2]; omega)
  dsimp only at hrun3
  rw [hadd2] at hrun3
  have hnp : ¬ Nat.Prime MinInt64.toNat := by
    have e0 : MinInt64.toNat = 0 := by rw [hMin]; omega
    rw [e0]; exact Nat.not_prime_zero
  rw [if_neg hnp] at hrun3
  -- the second worker alone, from `MinInt64` up to `max`
  have hr1 := wrap64_range ((0 : Int) + primesBetween 0 (2 ^ 63 - 2))
  have htot1' : s1.totalPrime = wrap64 ((0 : Int) + primesBetween 0 (2 ^ 63 - 2)) := htot1
  obtain ⟨s4, hrun4, hstart4, hwork4, htot4, ext4, hlog4⟩ :=
    solo_run (MaxInt64 - 1) 1 (by omega) (2 ^ 64 - 2)
      { start := MinInt64, totalPrime := s1.totalPrime, workers := s1.workers.set 0 Pc.done,
        log := s1.log ++ [Event.claimed 0 MaxInt64, Event.exited 0 MaxInt64] ++
          [Event.claimed 1 MinInt64, Event.evaluated 1 MinInt64] }
      (by show (s1.workers.set 0 Pc.done).get? 1 = _; rw [hwork1]; rfl)
      (by show MinInt64 ≤ MinInt64; omega)
      (by show MinInt64 + _ ≤ _; norm_num [hMax, hMin])
      (by show MinInt64 ≤ s1.totalPrime; rw [htot1']; exact hr1.1)
      (by show s1.totalPrime ≤ MaxInt64; rw [htot1']; exact hr1.2)
  dsimp only at hstart4 hwork4 htot4 hlog4
  have hs4 : s4.start = 2 ^ 63 - 2 := by
    rw [hstart4, hMin]; norm_num
  have hadd4 : AddInt64 s4.start 1 = MaxInt64 := by
    rw [ha, hw, hs4, hMax]; norm_num
  -- the second worker claims `MaxInt64` and leaves
  have hrun5 := round_exit (MaxInt64 - 1) s4 1 (by rw [hwork4, hwork1]; rfl)
    (by rw [hadd4]; omega)
  rw [hadd4] at hrun5
  have hfinal := (run_append _ _ _ _ _ hrun1).trans ((run_append _ _ _ _ _ hrun2).trans
    ((run_append _ _ _ _ _ hrun3).trans ((run_append _ _ _ _ _ hrun4).trans hrun5)))
  refine ⟨_, _, hfinal, ?_, rfl, ?_, ?_, ?_⟩
  · show ∀ pc ∈ s4.workers.set 1 Pc.done, pc = Pc.done
    rw [hwork4, hwork1]
    intro pc hpc
    simpa [initState] using hpc
  · show s4.totalPrime ≠ _
    have e : (MaxInt64 - 1).toNat = 2 ^ 63 - 2 := by rw [hMax]; omega
    have e2 : (MinInt64 + ((2 ^ 63 + 2 : Nat) : Int)).toNat = 2 := by rw [hMin]; omega
    rw [htot4, htot1', primeCount_eq_primesBetween, e]
    exact wrap64_twice_ne _ _ (primesBetween_le 0 (2 ^ 63 - 2))
      (primesBetween_le MinInt64 (2 ^ 64 - 2))
      (primesBetween_pos MinInt64 (2 ^ 64 - 2) (2 ^ 63 + 2) (by omega) (by omega)
        (by rw [e2]; exact Nat.prime_two))
  · show MinInt64 ∈ evaluatedValues (s4.log ++ _)
    rw [hlog4]
    simp [evaluatedValues, List.filterMap_append]
  · show ¬ (claimedValues (s4.log ++ _)).Pairwise (· < ·)
    rw [hlog4]
    apply not_pairwise_lt _ (claimedValues s1.log)
      ([MinInt64] ++ claimedValues ext4 ++ [MaxInt64]) MaxInt64 MinInt64
    · simp [claimedValues, List.filterMap_append]
    · simp
    · rw [hMax, hMin]; norm_num

/-! ## The number of primes up to 100000 -/

theorem prime_iff_gcd_factorial (k n : Nat) (h1 : k < n) (h2 : n < (k + 1) * (k + 1)) :
    Nat.Prime n ↔ Nat.gcd n k.factorial = 1 := by
  constructor
  · intro hp
    apply (Nat.Prime.coprime_iff_not_dvd hp).mpr
    intro hd
    have := (Nat.Prime.dvd_factorial hp).mp hd
    omega
  · intro hg
    by_contra hnp
    have hn0 : 0 < n := by omega
    have hn1 : n ≠ 1 := by
      intro h
      subst h
      have : k = 0 := by omega
      subst this
      omega
    have hm := Nat.minFac_prime hn1
    have hsq := Nat.minFac_sq_le_self hn0 hnp
    have hmk : n.minFac ≤ k := by
      by_contra hlt
      have h3 : k + 1 ≤ n.minFac := by omega
      have h4 : (k + 1) * (k + 1) ≤ n.minFac ^ 2 := by
        rw [pow_two]
        exact Nat.mul_le_mul h3 h3
      omega
    have hd1 : n.minFac ∣ k.factorial := Nat.dvd_factorial hm.pos hmk
    have hd2 : n.minFac ∣ Nat.gcd n k.factorial := Nat.dvd_gcd (Nat.minFac_dvd n) hd1
    rw [hg] at hd2
    exact hm.one_lt.ne' (Nat.dvd_one.mp hd2)

theorem F316_eq : F316 = Nat.factorial 316 := by decide!

theorem F17_eq : (355687428096000 : Nat) = Nat.factorial 17 := by decide!

theorem F4_eq : (24 : Nat) = Nat.factorial 4 := by decide!

theorem beq_gcd_eq (n f : Nat) (p : Prop) [Decidable p] (h : p ↔ Nat.gcd n f = 1) :
    Nat.beq (Nat.gcd n f) 1 = decide p := by
  rw [Bool.eq_iff_iff]
  simp only [Nat.beq_eq, decide_eq_true_eq]
  exact h.symm

theorem ble_false (a n : Nat) (h : ¬ a ≤ n) : Nat.ble a n = false := by
  rw [Bool.eq_false_iff]
  intro hb
  exact h (Nat.le_of_ble_eq_true hb)

theorem fastPrime_eq (n : Nat) (h : n < 100489) : fastPrime n = decide (Nat.Prime n) := by
  unfold fastPrime
  by_cases h317 : 317 ≤ n
  · rw [Nat.ble_eq_true_of_le h317, cond_true, F316_eq]
    exact beq_gcd_eq _ _ _ (prime_iff_gcd_factorial 316 n (by omega) (by omega))
  rw [ble_false 317 n h317, cond_false]
  by_cases h18 : 18 ≤ n
  · rw [Nat.ble_eq_true_of_le h18, cond_true, F17_eq]
    exact beq_gcd_eq _ _ _ (prime_iff_gcd_factorial 17 n (by omega) (by omega))
  rw [ble_false 18 n h18, cond_false]
  by_cases h5 : 5 ≤ n
  · rw [Nat.ble_eq_true_of_le h5, cond_true, F4_eq]
    exact beq_gcd_eq _ _ _ (prime_iff_gcd_factorial 4 n (by omega) (by omega))
  rw [ble_false 5 n h5, cond_false]
  have h4 : n < 5 := by omega
  interval_cases n
  · rw [decide_eq_false Nat.not_prime_zero]; rfl
  · rw [decide_eq_false Nat.not_prime_one]; rfl
  · rw [decide_eq_true Nat.prime_two]; rfl
  · rw [decide_eq_true Nat.prime_three]; rfl
  · have h4 : ¬ Nat.Prime 4 := by norm_num
    rw [decide_eq_false h4]; rfl

theorem countP_range'_add (p : Nat → Bool) (a m n : Nat) :
    (List.range' a (m + n)).countP p =
      (List.range' a m).countP p + (List.range' (a + m) n).countP p := by
  rw [← List.countP_append]
  congr 1
  rw [Nat.add_comm m n, ← List.range'_append]
  simp

theorem coprimeInd_eq (n : Nat) :
    coprimeInd n = if Nat.gcd n F316 = 1 then 1 else 0 := by
  unfold coprimeInd
  have hpos : 0 < Nat.gcd n F316 := Nat.gcd_pos_of_pos_right n (by decide)
  split_ifs <;> omega

theorem countP_coprime_singleton (a : Nat) :
    (List.range' a 1).countP (fun n => decide (Nat.gcd n F316 = 1)) = coprimeInd a := by
  rw [coprimeInd_eq, List.range'_one, List.countP_cons, List.countP_nil]
  by_cases h : Nat.gcd a F316 = 1 <;> simp [h]

theorem countLeaf_eq (a : Nat) :
    countLeaf a = (List.range' a 16).countP fun n => decide (Nat.gcd n F316 = 1) := by
  have e : (16 : Nat) = 1 + (1 + (1 + (1 + (1 + (1 + (1 + (1 + (1 + (1 + (1 + (1 + (1 + (1 +
      (1 + 1)))))))))))))) := rfl
  rw [e]
  simp only [countP_range'_add, countP_coprime_singleton]
  unfold countLeaf
  simp only [Nat.add_assoc]

theorem countBlock_eq : ∀ (d a : Nat),
    countBlock d a =
      (List.range' a (16 * 2 ^ d)).countP fun n => decide (Nat.gcd n F316 = 1) := by
  intro d
  induction d with
  | zero =>
    intro a
    rw [countBlock, countLeaf_eq]
    rfl
  | succ d ih =>
    intro a
    rw [countBlock, ih, ih, pow_succ, ← Nat.mul_assoc, Nat.mul_two, countP_range'_add]

theorem small_primes : (List.range' 1 316).countP fastPrime = 65 := by decide!

theorem countBlock_100000 :
    countBlock 12 (1 + 316) +
      (countBlock 11 (1 + 316 + 16 * 2 ^ 12) +
        (countBlock 6 (1 + 316 + 16 * 2 ^ 12 + 16 * 2 ^ 11) +
          (countBlock 4 (1 + 316 + 16 * 2 ^ 12 + 16 * 2 ^ 11 + 16 * 2 ^ 6) +
            (countBlock 2 (1 + 316 + 16 * 2 ^ 12 + 16 * 2 ^ 11 + 16 * 2 ^ 6 + 16 * 2 ^ 4) +
              (countBlock 1
                  (1 + 316 + 16 * 2 ^ 12 + 16 * 2 ^ 11 + 16 * 2 ^ 6 + 16 * 2 ^ 4 + 16 * 2 ^ 2) +
                (coprimeInd
                    (1 + 316 + 16 * 2 ^ 12 + 16 * 2 ^ 11 + 16 * 2 ^ 6 + 16 * 2 ^ 4 + 16 * 2 ^ 2 +
                      16 * 2 ^ 1) +
                  (coprimeInd
                      (1 + 316 + 16 * 2 ^ 12 + 16 * 2 ^ 11 + 16 * 2 ^ 6 + 16 * 2 ^ 4 +
                        16 * 2 ^ 2 + 16 * 2 ^ 1 + 1) +
                    (coprimeInd
                        (1 + 316 + 16 * 2 ^ 12 + 16 * 2 ^ 11 + 16 * 2 ^ 6 + 16 * 2 ^ 4 +
                          16 * 2 ^ 2 + 16 * 2 ^ 1 + 1 + 1) +
                      coprimeInd
                        (1 + 316 + 16 * 2 ^ 12 + 16 * 2 ^ 11 + 16 * 2 ^ 6 + 16 * 2 ^ 4 +
                          16 * 2 ^ 2 + 16 * 2 ^ 1 + 1 + 1 + 1))))))))) = 9527 := by
  decide!

theorem primeCount_100000 : primeCount 100000 = 9592 := by
  unfold primeCount
  have e1 : (100000 : Int).toNat = 316 + 99684 := by decide
  have e2 : (99684 : Nat) = 16 * 2 ^ 12 + (16 * 2 ^ 11 + (16 * 2 ^ 6 + (16 * 2 ^ 4 +
      (16 * 2 ^ 2 + (16 * 2 ^ 1 + (1 + (1 + (1 + 1)))))))) := by decide
  have hlow : (List.range' 1 316).countP (fun p => decide (Nat.Prime p)) = 65 := by
    rw [← small_primes]
    apply List.countP_congr
    intro x hx
    have := List.mem_range'_1.mp hx
    rw [fastPrime_eq x (by omega)]
  have hcongr : ∀ x ∈ List.range' (1 + 316) 99684,
      (decide (Nat.Prime x) = true ↔ decide (Nat.gcd x F316 = 1) = true) := by
    intro x hx
    have := List.mem_range'_1.mp hx
    rw [decide_eq_true_eq, decide_eq_true_eq, F316_eq]
    exact prime_iff_gcd_factorial 316 x (by omega) (by omega)
  have hhigh : (List.range' (1 + 316) 99684).countP (fun p => decide (Nat.Prime p)) = 9527 := by
    rw [List.countP_congr hcongr, e2]
    simp only [countP_range'_add, countP_coprime_singleton, ← countBlock_eq]
    exact countBlock_100000
  rw [e1, countP_range'_add, hlow, hhigh]

/-! ## Runs with a bound below 1 -/

theorem get?_set_cases (l : List Pc) (w : Nat) (p : Pc) (w' : Nat) (pc' : Pc)
    (h : (l.set w p).get? w' = some pc') :
    (w' = w ∧ pc' = p) ∨ (w' ≠ w ∧ l.get? w' = some pc') := by
  by_cases e : w' = w
  · left
    subst e
    refine ⟨rfl, ?_⟩
    have hlt : w' < l.length := by
      by_contra hge
      rw [List.get?_eq_none.mpr (by simp; omega)] at h
      exact absurd h (by simp)
    simp [hlt] at h
    exact h.symm
  · right
    refine ⟨e, ?_⟩
    rw [List.get?_eq_getElem?] at h ⊢
    rw [List.getElem?_set_ne (fun h' => e h'.symm)] at h
    exact h

theorem eventsOf_append (w : Nat) (l : List Event) (e : Event) :
    eventsOf w (l ++ [e]) = eventsOf w l ++ (if e.worker = w then [e] else []) := by
  unfold eventsOf
  rw [List.filter_append]
  by_cases h : e.worker = w <;> simp [h]

theorem InvLow_init (max : Int) (conc : Nat) : InvLow max conc (initState conc) := by
  refine ⟨?_, ?_, rfl, rfl, ?_⟩
  · simp [initState]
  · show (0 : Int) = (((List.replicate conc Pc.claim).map claimedOnce).sum : Nat)
    have : ((List.replicate conc Pc.claim).map claimedOnce).sum = 0 := by
      induction conc with
      | zero => simp
      | succ n ih =>
        rw [List.replicate_succ, List.map_cons, List.sum_cons, ih]
        simp [claimedOnce]
    rw [this]; rfl
  · intro w pc hg
    left
    have hmem : pc ∈ List.replicate conc Pc.claim := List.get?_mem hg
    exact ⟨(List.mem_replicate.mp hmem).2, rfl⟩

theorem claimedOnce_le_one (p : Pc) : claimedOnce p ≤ 1 := by
  cases p <;> simp [claimedOnce]

theorem InvLow_step (max : Int) (conc : Nat) (hmax : max < 1) (hc : (conc : Int) ≤ MaxInt64)
    (s s' : State) (w : Nat) (hinv : InvLow max conc s) (hstep : stepWorker max s w = some s') :
    InvLow max conc s' := by
  rcases stepWorker_cases max s w s' hstep with
    ⟨hg, rfl⟩ | ⟨x, hg, hx, rfl⟩ | ⟨x, hg, hx, rfl⟩ | ⟨x, t, hg, ht, rfl⟩
  · -- the first claim of worker `w`
    have hS := sum_map_set claimedOnce s.workers w .claim .done hg
    have hS1 := sum_map_le_length claimedOnce claimedOnce_le_one (s.workers.set w .done)
    rw [List.length_set, hinv.len] at hS1
    simp only [claimedOnce] at hS
    have hst := hinv.start_eq
    have hadd : AddInt64 s.start 1 = s.start + 1 :=
      AddInt64_one_of_lt _ (by unfold MinInt64; omega) (by omega)
    have hT := sum_map_set claimedOnce s.workers w .claim (.test (AddInt64 s.start 1)) hg
    simp only [claimedOnce] at hT
    refine ⟨?_, ?_, hinv.total, ?_, ?_⟩
    · simp [hinv.len]
    · show AddInt64 s.start 1 = _
      dsimp only
      rw [hadd] at hT ⊢
      omega
    · show evaluatedValues (s.log ++ [Event.claimed w (AddInt64 s.start 1)]) = []
      have := hinv.no_eval
      simp [evaluatedValues, List.filterMap_append] at this ⊢
      exact this
    · intro w' pc' hg'
      change (s.workers.set w (Pc.test (AddInt64 s.start 1))).get? w' = some pc' at hg'
      show (pc' = Pc.claim ∧ eventsOf w' (s.log ++ [Event.claimed w (AddInt64 s.start 1)]) = []) ∨
        (∃ x, max < x ∧ pc' = Pc.test x ∧
          eventsOf w' (s.log ++ [Event.claimed w (AddInt64 s.start 1)]) = [Event.claimed w' x]) ∨
        (∃ x, max < x ∧ pc' = Pc.done ∧
          eventsOf w' (s.log ++ [Event.claimed w (AddInt64 s.start 1)]) =
            [Event.claimed w' x, Event.exited w' x])
      rw [eventsOf_append]
      rcases get?_set_cases _ _ _ _ _ hg' with ⟨rfl, rfl⟩ | ⟨hne, hold⟩
      · right; left
        rcases hinv.hist w' .claim hg with ⟨_, he⟩ | ⟨x, _, h, _⟩ | ⟨x, _, h, _⟩
        · refine ⟨AddInt64 s.start 1, by rw [hadd]; omega, rfl, ?_⟩
          rw [he]
          simp [Event.worker]
        · exact absurd h (by simp)
        · exact absurd h (by simp)
      · have hw : ¬ (Event.claimed w (AddInt64 s.start 1)).worker = w' := fun h => hne h.symm
        rw [if_neg hw, List.append_nil]
        exact hinv.hist w' pc' hold
  · -- worker `w` leaves
    have hT := sum_map_set claimedOnce s.workers w (.test x) .done hg
    simp only [claimedOnce] at hT
    refine ⟨?_, ?_, hinv.total, ?_, ?_⟩
    · simp [hinv.len]
    · show s.start = _
      dsimp only
      have := hinv.start_eq
      omega
    · show evaluatedValues (s.log ++ [Event.exited w x]) = []
      have := hinv.no_eval
      simp [evaluatedValues, List.filterMap_append] at this ⊢
      exact this
    · intro w' pc' hg'
      change (s.workers.set w Pc.done).get? w' = some pc' at hg'
      show (pc' = Pc.claim ∧ eventsOf w' (s.log ++ [Event.exited w x]) = []) ∨
        (∃ y, max < y ∧ pc' = Pc.test y ∧
          eventsOf w' (s.log ++ [Event.exited w x]) = [Event.claimed w' y]) ∨
        (∃ y, max < y ∧ pc' = Pc.done ∧
          eventsOf w' (s.log ++ [Event.exited w x]) = [Event.claimed w' y, Event.exited w' y])
      rw [eventsOf_append]
      rcases get?_set_cases _ _ _ _ _ hg' with ⟨rfl, rfl⟩ | ⟨hne, hold⟩
      · right; right
        rcases hinv.hist w' (.test x) hg with ⟨h, _⟩ | ⟨y, hy, h, he⟩ | ⟨y, _, h, _⟩
        · exact absurd h (by simp)
        · have hxy : x = y := by simpa using h
          subst hxy
          refine ⟨x, hx, rfl, ?_⟩
          rw [he]
          simp [Event.worker]
        · exact absurd h (by simp)
      · have hw : ¬ (Event.exited w x).worker = w' := fun h => hne h.symm
        rw [if_neg hw, List.append_nil]
        exact hinv.hist w' pc' hold
  · -- impossible: a claimed value is above `max`
    rcases hinv.hist w (.test x) hg with ⟨h, _⟩ | ⟨y, hy, h, _⟩ | ⟨y, _, h, _⟩
    · exact absurd h (by simp)
    · have hxy : x = y := by simpa using h
      omega
    · exact absurd h (by simp)
  · -- impossible: no worker reaches `CheckPrime`
    rcases hinv.hist w (.check x) hg with ⟨h, _⟩ | ⟨y, _, h, _⟩ | ⟨y, _, h, _⟩ <;>
      exact absurd h (by simp)

theorem InvLow_run (max : Int) (conc : Nat) (hmax : max < 1) (hc : (conc : Int) ≤ MaxInt64) :
    ∀ (sched : List Nat) (s s' : State), InvLow max conc s → run max s sched = some s' →
      InvLow max conc s' := by
  intro sched
  induction sched with
  | nil =>
    intro s s' hinv hrun
    simp only [run, Option.some.injEq] at hrun
    rw [← hrun]; exact hinv
  | cons w ws ih =>
    intro s s' hinv hrun
    rw [run] at hrun
    cases hst : stepWorker max s w with
    | none => rw [hst] at hrun; exact absurd hrun (by simp)
    | some s1 =>
      rw [hst] at hrun
      exact ih s1 s' (InvLow_step max conc hmax hc s s1 w hinv hst) hrun

/-! ## A complete run exists -/

theorem get?_done_claim (k m : Nat) :
    (List.replicate k Pc.done ++ List.replicate (m + 1) Pc.claim).get? k = some Pc.claim := by
  induction k with
  | zero => simp [List.replicate_succ]
  | succ k ih => simpa [List.replicate_succ] using ih

theorem set_done_claim (k m : Nat) :
    (List.replicate k Pc.done ++ List.replicate (m + 1) Pc.claim).set k Pc.done =
      List.replicate (k + 1) Pc.done ++ List.replicate m Pc.claim := by
  induction k with
  | zero => simp [List.replicate_succ]
  | succ k ih =>
    rw [List.replicate_succ, List.cons_append, List.set_cons_succ, ih]
    simp [List.replicate_succ]

/-- The workers `k, k + 1, ..., k + m - 1` leave one after the other. -/
theorem exits_run (max : Int) :
    ∀ (m k : Nat) (s : State),
      s.workers = List.replicate k Pc.done ++ List.replicate m Pc.claim →
      max ≤ s.start → MinInt64 ≤ s.start → s.start + m ≤ MaxInt64 →
      ∃ s', run max s ((List.range' k m).flatMap fun w => [w, w]) = some s' ∧
        s'.workers = List.replicate (k + m) Pc.done ∧ s'.totalPrime = s.totalPrime ∧
        s'.start = s.start + m := by
  intro m
  induction m with
  | zero =>
    intro k s hw _ _ _
    exact ⟨s, rfl, by simpa using hw, rfl, by simp⟩
  | succ m ih =>
    intro k s hw hle hmin hmaxv
    have hg : s.workers.get? k = some Pc.claim := by rw [hw]; exact get?_done_claim k m
    have hadd : AddInt64 s.start 1 = s.start + 1 :=
      AddInt64_one_of_lt _ hmin (by push_cast at hmaxv; omega)
    have hround := round_exit max s k hg (by rw [hadd]; omega)
    obtain ⟨s', hrun, hw', ht', hs'⟩ := ih (k + 1)
      { start := AddInt64 s.start 1
        totalPrime := s.totalPrime
        workers := s.workers.set k Pc.done
        log := s.log ++ [Event.claimed k (AddInt64 s.start 1),
          Event.exited k (AddInt64 s.start 1)] }
      (by show s.workers.set k Pc.done = _; rw [hw]; exact set_done_claim k m)
      (by show max ≤ AddInt64 s.start 1; rw [hadd]; omega)
      (by show MinInt64 ≤ AddInt64 s.start 1; rw [hadd]; omega)
      (by show AddInt64 s.start 1 + (m : Int) ≤ MaxInt64; rw [hadd]; push_cast at hmaxv; omega)
    refine ⟨s', ?_, ?_, ht', ?_⟩
    · rw [List.range'_succ, List.flatMap_cons, run_append max _ _ s _ hround]
      exact hrun
    · rw [hw']; congr 1; omega
    · rw [hs']
      show AddInt64 s.start 1 + (m : Int) = s.start + ((m + 1 : Nat) : Int)
      rw [hadd]; push_cast; ring

/-- The schedule `soloSchedule max concurrency` is a complete run. -/
theorem solo_complete (max : Int) (conc : Nat) (h0 : 0 ≤ max) (h1 : 1 ≤ conc)
    (hc : max + conc ≤ MaxInt64) :
    ∃ s, run max (initState conc) (soloSchedule max conc) = some s ∧ allDone s := by
  have hg0 : (initState conc).workers.get? 0 = some Pc.claim := by
    show (List.replicate conc Pc.claim).get? 0 = _
    obtain ⟨n, rfl⟩ : ∃ n, conc = n + 1 := ⟨conc - 1, by omega⟩
    simp [List.replicate_succ]
  obtain ⟨s1, hrun1, hstart1, hwork1, _, _⟩ :=
    solo_run max 0 (by omega) max.toNat (initState conc) hg0
      (by show MinInt64 ≤ (0 : Int); unfold MinInt64; omega)
      (by show (0 : Int) + _ ≤ _; omega)
      (by show MinInt64 ≤ (0 : Int); unfold MinInt64; omega)
      (by show (0 : Int) ≤ MaxInt64; unfold MaxInt64; omega)
  have hs1 : s1.start = max := by
    rw [hstart1]; show (0 : Int) + _ = _; omega
  obtain ⟨s2, hrun2, hwork2, _, _⟩ := exits_run max conc 0 s1
    (by rw [hwork1]; simp [initState])
    (by omega) (by unfold MinInt64; omega) (by omega)
  refine ⟨s2, ?_, ?_⟩
  · unfold soloSchedule
    rw [run_append max _ _ _ _ hrun1]
    exact hrun2
  · intro pc hpc
    rw [hwork2] at hpc
    exact (List.mem_replicate.mp hpc).2

/-! ## The bound `MaxInt64` -/

theorem Looping_step (s s' : State) (w : Nat) (hl : Looping s)
    (hstep : stepWorker MaxInt64 s w = some s') : Looping s' := by
  rcases stepWorker_cases MaxInt64 s w s' hstep with
    ⟨hg, rfl⟩ | ⟨x, hg, hx, rfl⟩ | ⟨x, hg, hx, rfl⟩ | ⟨x, t, hg, ht, rfl⟩
  · exact forall_mem_set w hl (Or.inr (Or.inl ⟨_, rfl, (wrap64_range _).2⟩))
  · rcases hl _ (mem_of_get? hg) with h | ⟨y, h, hy⟩ | ⟨y, h⟩
    · exact absurd h (by simp)
    · have : x = y := by simpa using h
      omega
    · exact absurd h (by simp)
  · exact forall_mem_set w hl (Or.inr (Or.inr ⟨x, rfl⟩))
  · exact forall_mem_set w hl (Or.inl rfl)

theorem Looping_run :
    ∀ (sched : List Nat) (s s' : State), Looping s → run MaxInt64 s sched = some s' →
      Looping s' := by
  intro sched
  induction sched with
  | nil =>
    intro s s' hl hrun
    simp only [run, Option.some.injEq] at hrun
    rw [← hrun]; exact hl
  | cons w ws ih =>
    intro s s' hl hrun
    rw [run] at hrun
    cases hst : stepWorker MaxInt64 s w with
    | none => rw [hst] at hrun; exact absurd hrun (by simp)
    | some s1 =>
      rw [hst] at hrun
      exact ih s1 s' (Looping_step s s1 w hl hst) hrun

theorem length_step (max : Int) (s s' : State) (w : Nat) (hstep : stepWorker max s w = some s') :
    s'.workers.length = s.workers.length := by
  rcases stepWorker_cases max s w s' hstep with
    ⟨_, rfl⟩ | ⟨x, _, _, rfl⟩ | ⟨x, _, _, rfl⟩ | ⟨x, t, _, _, rfl⟩ <;> simp

theorem length_run (max : Int) :
    ∀ (sched : List Nat) (s s' : State), run max s sched = some s' →
      s'.workers.length = s.workers.length := by
  intro sched
  induction sched with
  | nil =>
    intro s s' hrun
    simp only [run, Option.some.injEq] at hrun
    rw [← hrun]
  | cons w ws ih =>
    intro s s' hrun
    rw [run] at hrun
    cases hst : stepWorker max s w with
    | none => rw [hst] at hrun; exact absurd hrun (by simp)
    | some s1 =>
      rw [hst] at hrun
      rw [ih s1 s' hrun, length_step max s s1 w hst]

theorem Looping_init (conc : Nat) : Looping (initState conc) := by
  intro pc hpc
  left
  exact (List.mem_replicate.mp hpc).2

/-- The single worker of a run with `max = MaxInt64` is never done. -/
theorem worker_zero_looping (sched : List Nat) (s : State)
    (hrun : run MaxInt64 (initState 1) sched = some s) :
    ∃ pc, s.workers.get? 0 = some pc ∧ pc ∈ s.workers ∧ pc ≠ Pc.done ∧
      ∀ f, pc ≠ Pc.panicked f := by
  have hlen := length_run MaxInt64 sched _ s hrun
  have hl := Looping_run sched _ s (Looping_init 1) hrun
  have h1 : s.workers.length = 1 := by rw [hlen]; rfl
  cases hw : s.workers with
  | nil => rw [hw] at h1; exact absurd h1 (by simp)
  | cons pc rest =>
    refine ⟨pc, rfl, by simp, ?_, ?_⟩
    · intro hd
      rcases hl pc (by rw [hw]; simp) with h | ⟨y, h, _⟩ | ⟨y, h⟩ <;>
        · rw [hd] at h; exact absurd h (by simp)
    · intro f hd
      rcases hl pc (by rw [hw]; simp) with h | ⟨y, h, _⟩ | ⟨y, h⟩ <;>
        · rw [hd] at h; exact absurd h (by simp)

/-! ## The integers 1..n, once more -/

theorem pairwise_upTo (n : Nat) : (upTo n).Pairwise (· < ·) := by
  unfold upTo
  rw [List.pairwise_map]
  exact (List.pairwise_lt_range' 1 n).imp (fun h => by exact_mod_cast h)

theorem nodup_upTo (n : Nat) : (upTo n).Nodup :=
  (pairwise_upTo n).imp (fun h => ne_of_lt h)

theorem count_upTo (n : Nat) (x : Int) :
    (upTo n).count x = if 1 ≤ x ∧ x ≤ n then 1 else 0 := by
  by_cases h : 1 ≤ x ∧ x ≤ n
  · rw [if_pos h]
    exact List.count_eq_one_of_mem (nodup_upTo n) ((mem_upTo n x).mpr h)
  · rw [if_neg h]
    exact List.count_eq_zero_of_not_mem (fun hm => h ((mem_upTo n x).mp hm))

/-! ## The loop never divides by zero -/

theorem trialLoop_no_divideByZero (x : Int) :
    ∀ (fuel : Nat) (i : Int), 3 ≤ i →
      (trialLoop x fuel i).outcome ≠ .error .divideByZero := by
  intro fuel
  induction fuel with
  | zero => intro i _; simp [trialLoop]
  | succ fuel ih =>
    intro i hi
    rw [trialLoop_step x fuel i hi]
    split_ifs
    · simp
    · exact ih (i + 2) (by omega)
    · simp

/-! ## Each worker leaves once -/

theorem exitsOf_append (w : Nat) (l : List Event) (e : Event) :
    exitsOf w (l ++ [e]) = exitsOf w l ++ exitValues (if e.worker = w then [e] else []) := by
  unfold exitsOf
  rw [eventsOf_append]
  unfold exitValues
  rw [List.filterMap_append]

theorem mem_exitValues_of_mem_exitsOf (w : Nat) (l : List Event) (x : Int)
    (h : x ∈ exitsOf w l) : x ∈ exitValues l := by
  unfold exitsOf exitValues eventsOf at h
  unfold exitValues
  rw [List.mem_filterMap] at h ⊢
  obtain ⟨e, he, hx⟩ := h
  exact ⟨e, (List.mem_filter.mp he).1, hx⟩

theorem ExitOnce_init (conc : Nat) : ExitOnce (initState conc) := by
  intro w pc hg
  have hmem : pc ∈ List.replicate conc Pc.claim := List.get?_mem hg
  rw [(List.mem_replicate.mp hmem).2]
  rfl

theorem ExitOnce_step (max : Int) (s s' : State) (w : Nat) (he : ExitOnce s)
    (hstep : stepWorker max s w = some s') : ExitOnce s' := by
  rcases stepWorker_cases max s w s' hstep with
    ⟨hg, rfl⟩ | ⟨x, hg, hx, rfl⟩ | ⟨x, hg, hx, rfl⟩ | ⟨x, t, hg, ht, rfl⟩
  · intro w' pc' hg'
    change (s.workers.set w (Pc.test (AddInt64 s.start 1))).get? w' = some pc' at hg'
    show (exitsOf w' (s.log ++ [Event.claimed w (AddInt64 s.start 1)])).length = isDone pc'
    rw [exitsOf_append]
    have e0 : exitValues (if (Event.claimed w (AddInt64 s.start 1)).worker = w'
        then [Event.claimed w (AddInt64 s.start 1)] else []) = [] := by
      split_ifs <;> rfl
    rw [e0, List.append_nil]
    rcases get?_set_cases _ _ _ _ _ hg' with ⟨rfl, rfl⟩ | ⟨_, hold⟩
    · exact he w' Pc.claim hg
    · exact he w' pc' hold
  · intro w' pc' hg'
    change (s.workers.set w Pc.done).get? w' = some pc' at hg'
    show (exitsOf w' (s.log ++ [Event.exited w x])).length = isDone pc'
    rw [exitsOf_append]
    rcases get?_set_cases _ _ _ _ _ hg' with ⟨rfl, rfl⟩ | ⟨hne, hold⟩
    · have h0 := he w' _ hg
      rw [if_pos (show (Event.exited w' x).worker = w' from rfl), List.length_append, h0]
      rfl
    · have hw : ¬ (Event.exited w x).worker = w' := fun h => hne h.symm
      rw [if_neg hw]
      simpa [exitValues] using he w' pc' hold
  · intro w' pc' hg'
    change (s.workers.set w (Pc.check x)).get? w' = some pc' at hg'
    show (exitsOf w' s.log).length = isDone pc'
    rcases get?_set_cases _ _ _ _ _ hg' with ⟨rfl, rfl⟩ | ⟨_, hold⟩
    · exact he w' (Pc.test x) hg
    · exact he w' pc' hold
  · intro w' pc' hg'
    change (s.workers.set w Pc.claim).get? w' = some pc' at hg'
    show (exitsOf w' (s.log ++ [Event.evaluated w x])).length = isDone pc'
    rw [exitsOf_append]
    have e0 : exitValues (if (Event.evaluated w x).worker = w'
        then [Event.evaluated w x] else []) = [] := by
      split_ifs <;> rfl
    rw [e0, List.append_nil]
    rcases get?_set_cases _ _ _ _ _ hg' with ⟨rfl, rfl⟩ | ⟨_, hold⟩
    · exact he w' (Pc.check x) hg
    · exact he w' pc' hold

theorem ExitOnce_run (max : Int) :
    ∀ (sched : List Nat) (s s' : State), ExitOnce s → run max s sched = some s' →
      ExitOnce s' := by
  intro sched
  induction sched with
  | nil =>
    intro s s' he hrun
    simp only [run, Option.some.injEq] at hrun
    rw [← hrun]; exact he
  | cons w ws ih =>
    intro s s' he hrun
    rw [run] at hrun
    cases hst : stepWorker max s w with
    | none => rw [hst] at hrun; exact absurd hrun (by simp)
    | some s1 =>
      rw [hst] at hrun
      exact ih s1 s' (ExitOnce_step max s s1 w he hst) hrun

/-- At the end of a run every worker has left on exactly one value, a value
above `max`. -/
theorem exits_once_above_max (max : Int) (conc : Nat) (sched : List Nat) (s : State)
    (h0 : 0 ≤ max) (hc : max + conc ≤ MaxInt64)
    (hrun : run max (initState conc) sched = some s) (hdone : allDone s) :
    ∀ w, w < conc → ∃ x, max < x ∧ exitsOf w s.log = [x] := by
  have hinv := Inv_reachable max conc h0 hc sched s hrun
  have he := ExitOnce_run max sched _ s (ExitOnce_init conc) hrun
  intro w hw
  have hlt : w < s.workers.length := by rw [hinv.len]; exact hw
  have hg : s.workers.get? w = some s.workers[w] := by simp [hlt]
  have hpc := hdone _ (List.getElem_mem hlt)
  have hlen := he w _ hg
  rw [hpc] at hlen
  obtain ⟨x, hx⟩ := List.length_eq_one.mp hlen
  refine ⟨x, ?_, hx⟩
  apply hinv.exit_gt
  apply mem_exitValues_of_mem_exitsOf w
  rw [hx]
  simp

/-! ## The claims about CheckPrime -/

/-- Claim C1: for every `x` with `0 ≤ x` in the `int64` range, `CheckPrime(x,
totalPrime)` adds 1 to the accumulator when `x` is prime (the `int64` addition
`AddInt64`, which is `+ 1` for every accumulator below `MaxInt64`) and leaves it
unchanged when `x` is not prime; 2 and 97 are counted, 0, 1 and 9 are not. -/
theorem CheckPrime_counts_exactly_the_primes (x acc : Int) (_hx0 : 0 ≤ x)
    (_hx1 : x ≤ MaxInt64) :
    (Nat.Prime x.toNat → CheckPrime x acc = .ok (AddInt64 acc 1)) ∧
    (Nat.Prime x.toNat → MinInt64 ≤ acc → acc < MaxInt64 → CheckPrime x acc = .ok (acc + 1)) ∧
    (¬ Nat.Prime x.toNat → CheckPrime x acc = .ok acc) ∧
    CheckPrime 2 acc = .ok (AddInt64 acc 1) ∧ CheckPrime 97 acc = .ok (AddInt64 acc 1) ∧
    CheckPrime 0 acc = .ok acc ∧ CheckPrime 1 acc = .ok acc ∧ CheckPrime 9 acc = .ok acc := by
  have key := CheckPrime_eq x acc _hx1
  refine ⟨?_, ?_, ?_, ?_, ?_, ?_, ?_, ?_⟩
  · intro hp
    rw [key, if_pos hp]
  · intro hp h0 h1
    rw [key, if_pos hp, AddInt64_one_of_lt acc h0 h1]
  · intro hp
    rw [key, if_neg hp]
  · rw [CheckPrime_eq 2 acc (by decide),
      if_pos (show Nat.Prime (Int.toNat 2) from Nat.prime_two)]
  · rw [CheckPrime_eq 97 acc (by decide), if_pos (show Nat.Prime (Int.toNat 97) by
      show Nat.Prime 97
      norm_num)]
  · rw [CheckPrime_eq 0 acc (by decide),
      if_neg (show ¬ Nat.Prime (Int.toNat 0) from Nat.not_prime_zero)]
  · rw [CheckPrime_eq 1 acc (by decide),
      if_neg (show ¬ Nat.Prime (Int.toNat 1) from Nat.not_prime_one)]
  · rw [CheckPrime_eq 9 acc (by decide), if_neg (show ¬ Nat.Prime (Int.toNat 9) by
      show ¬ Nat.Prime 9
      norm_num)]

theorem CheckPrime_counts_exactly_the_primes_witness :
    (0 : Int) ≤ 97 ∧ (97 : Int) ≤ MaxInt64 ∧ CheckPrime 97 0 = .ok (AddInt64 0 1) :=
  ⟨by decide, by decide,
    (CheckPrime_counts_exactly_the_primes 97 0 (by decide) (by decide)).2.2.2.2.1⟩

/-- Claim C8: `CheckPrime` is total on the non-negative `int64` values: with at
least `loopFuel x` evaluations of the loop condition its loop, bounded by
`int(math.Sqrt(float64(x)))` as binary64 arithmetic computes it, has ended and
the call returns a value, the same for every larger amount; every remainder
`x % i` the loop executes has `3 ≤ i`, so none of them panics, `i += 2` stays in
the `int64` range, and the loop never ends in a division by zero. -/
theorem CheckPrime_total_without_division_by_zero (x acc : Int) (_hx0 : 0 ≤ x)
    (_hx1 : x ≤ MaxInt64) :
    (∃ t, CheckPrime x acc = .ok t ∧
      ∀ fuel, loopFuel x ≤ fuel → CheckPrimeFuel fuel x acc = .ok t) ∧
    (∀ fuel, ∀ d ∈ (trialLoop x fuel 3).divisors,
      3 ≤ d ∧ d ≤ sqrtBound x ∧ d + 2 ≤ MaxInt64 ∧ rem64 x d = .ok (Int.tmod x d)) ∧
    (∀ fuel, (trialLoop x fuel 3).outcome ≠ .error .divideByZero) ∧
    (∀ fuel, loopFuel x ≤ fuel → CheckPrimeFuel fuel x acc ≠ .error .outOfFuel) := by
  refine ⟨⟨_, CheckPrime_eq x acc _hx1,
    fun fuel hf => CheckPrimeFuel_eq x acc fuel _hx1 hf⟩, ?_, ?_, ?_⟩
  · intro fuel d hd
    have h3 := trialLoop_divisors x fuel 3 (le_refl _) d hd
    have h4 := sqrtBound_no_overflow x _hx1
    exact ⟨h3.1, h3.2, by omega, rem64_of_three_le x d h3.1⟩
  · intro fuel
    exact trialLoop_no_divideByZero x fuel 3 (le_refl _)
  · intro fuel hf
    rw [CheckPrimeFuel_eq x acc fuel _hx1 hf]
    simp

theorem CheckPrime_total_without_division_by_zero_witness :
    (0 : Int) ≤ 97 ∧ (97 : Int) ≤ MaxInt64 ∧ ∃ t, CheckPrime 97 0 = .ok t :=
  ⟨by decide, by decide,
    let ⟨t, ht, _⟩ :=
      (CheckPrime_total_without_division_by_zero 97 0 (by decide) (by decide)).1
    ⟨t, ht⟩⟩

theorem odd_divisor_iff (x b : Int) (h2 : 2 < x) (hodd : x % 2 = 1) (hlo : intSqrt x ≤ b)
    (hhi : b < x) :
    Nat.Prime x.toNat ↔ ∀ i : Int, 3 ≤ i → i ≤ b → i % 2 = 1 → ¬ i ∣ x := by
  have hxn : ((x.toNat : Nat) : Int) = x := Int.toNat_of_nonneg (by omega)
  have key := odd_trial_iff_prime_of_bound x.toNat b (by omega) (by omega) hlo
    (by rw [hxn]; exact hhi)
  rw [hxn] at key
  constructor
  · intro hp i hi hle hio hd
    have e : (3 : Int) + 2 * (((i - 3) / 2).toNat : Int) = i := by omega
    apply key.mp hp ((i - 3) / 2).toNat
    · rw [e]; exact hle
    · rw [e]; exact hd
  · intro hall
    apply key.mpr
    intro k hk hd
    exact hall (3 + 2 * (k : Int)) (by omega) hk (by omega) hd

theorem intSqrt_lt (x : Int) (h2 : 2 < x) : intSqrt x < x := by
  have hxn : ((x.toNat : Nat) : Int) = x := Int.toNat_of_nonneg (by omega)
  have h : Nat.sqrt x.toNat < x.toNat := Nat.sqrt_lt_self (by omega)
  unfold intSqrt
  omega

/-- Claim C9: for every odd `x > 2` in the `int64` range, `CheckPrime` adds 1 to
the accumulator exactly when no odd `i` with `3 ≤ i ≤ intSqrt x` divides `x`,
and leaves it unchanged exactly when some such `i` divides `x`. The bound
`sqrtBound x` that the loop itself uses, `int(math.Sqrt(float64(x)))` as
binary64 arithmetic computes it, lies between `intSqrt x` and `x - 1`, and the
same holds with it in the place of `intSqrt x`. The bound is inclusive, so the
square of an odd prime `p` (9, 25, 49, ...) is divided by `p` and not counted. -/
theorem CheckPrime_odd_trial_division (x acc : Int) (h2 : 2 < x) (hodd : x % 2 = 1)
    (_hx1 : x ≤ MaxInt64) :
    (CheckPrime x acc = .ok (AddInt64 acc 1) ↔
      ∀ i : Int, 3 ≤ i → i ≤ intSqrt x → i % 2 = 1 → ¬ i ∣ x) ∧
    (CheckPrime x acc = .ok acc ↔
      ∃ i : Int, 3 ≤ i ∧ i ≤ intSqrt x ∧ i % 2 = 1 ∧ i ∣ x) ∧
    (intSqrt x ≤ sqrtBound x ∧ sqrtBound x < x) ∧
    (CheckPrime x acc = .ok (AddInt64 acc 1) ↔
      ∀ i : Int, 3 ≤ i → i ≤ sqrtBound x → i % 2 = 1 → ¬ i ∣ x) ∧
    (CheckPrime x acc = .ok acc ↔
      ∃ i : Int, 3 ≤ i ∧ i ≤ sqrtBound x ∧ i % 2 = 1 ∧ i ∣ x) ∧
    (∀ p : Nat, Nat.Prime p → p % 2 = 1 → (p : Int) * p ≤ MaxInt64 →
      intSqrt ((p : Int) * p) = p ∧ (p : Int) ≤ sqrtBound ((p : Int) * p) ∧
        CheckPrime ((p : Int) * p) acc = .ok acc) ∧
    CheckPrime 9 acc = .ok acc ∧ CheckPrime 25 acc = .ok acc ∧ CheckPrime 49 acc = .ok acc := by
  have key := CheckPrime_eq x acc _hx1
  have hb := sqrtBound_spec x (by omega) _hx1
  have hne := AddInt64_one_ne acc
  have hadd : ∀ b : Int, intSqrt x ≤ b → b < x →
      (CheckPrime x acc = .ok (AddInt64 acc 1) ↔
        ∀ i : Int, 3 ≤ i → i ≤ b → i % 2 = 1 → ¬ i ∣ x) := by
    intro b hlo hhi
    rw [← odd_divisor_iff x b h2 hodd hlo hhi, key]
    constructor
    · intro h
      by_contra hnp
      rw [if_neg hnp] at h
      exact hne (Except.ok.inj h).symm
    · intro hp
      rw [if_pos hp]
  have hkeep : ∀ b : Int, intSqrt x ≤ b → b < x →
      (CheckPrime x acc = .ok acc ↔ ∃ i : Int, 3 ≤ i ∧ i ≤ b ∧ i % 2 = 1 ∧ i ∣ x) := by
    intro b hlo hhi
    have hex : (∃ i : Int, 3 ≤ i ∧ i ≤ b ∧ i % 2 = 1 ∧ i ∣ x) ↔ ¬ Nat.Prime x.toNat := by
      rw [odd_divisor_iff x b h2 hodd hlo hhi]
      push_neg
      rfl
    rw [hex, key]
    constructor
    · intro h hp
      rw [if_pos hp] at h
      exact hne (Except.ok.inj h)
    · intro hnp
      rw [if_neg hnp]
  have hsquare : ∀ p : Nat, Nat.Prime p → p % 2 = 1 → (p : Int) * p ≤ MaxInt64 →
      intSqrt ((p : Int) * p) = p ∧ (p : Int) ≤ sqrtBound ((p : Int) * p) ∧
        CheckPrime ((p : Int) * p) acc = .ok acc := by
    intro p hp hpo hle
    have e : ((p : Int) * p).toNat = p * p := by
      have : (p : Int) * p = ((p * p : Nat) : Int) := by push_cast; ring
      rw [this, Int.toNat_ofNat]
    have hsq : intSqrt ((p : Int) * p) = p := by
      unfold intSqrt
      rw [e, Nat.sqrt_eq]
    have hp3 : 3 ≤ p := by
      have := hp.two_le
      omega
    have h9 : (3 : Int) ≤ (p : Int) * p := by
      have : (3 : Int) ≤ (p : Int) := by exact_mod_cast hp3
      nlinarith
    refine ⟨hsq, ?_, ?_⟩
    · have := (sqrtBound_spec ((p : Int) * p) h9 hle).1
      rw [hsq] at this
      exact this
    · rw [CheckPrime_eq _ _ hle, e, if_neg (Nat.not_prime_mul hp.ne_one hp.ne_one)]
  refine ⟨hadd _ (le_refl _) (intSqrt_lt x h2), hkeep _ (le_refl _) (intSqrt_lt x h2), hb,
    hadd _ hb.1 hb.2, hkeep _ hb.1 hb.2, hsquare, ?_, ?_, ?_⟩
  · exact (hsquare 3 Nat.prime_three (by decide) (by decide)).2.2
  · exact (hsquare 5 Nat.prime_five (by decide) (by decide)).2.2
  · exact (hsquare 7 (by norm_num) (by decide) (by decide)).2.2

theorem CheckPrime_odd_trial_division_witness :
    (2 : Int) < 9 ∧ (9 : Int) % 2 = 1 ∧ (9 : Int) ≤ MaxInt64 ∧
      (CheckPrime 9 0 = .ok 0 ↔ ∃ i : Int, 3 ≤ i ∧ i ≤ intSqrt 9 ∧ i % 2 = 1 ∧ i ∣ 9) :=
  ⟨by decide, by decide, by decide,
    (CheckPrime_odd_trial_division 9 0 (by decide) (by decide) (by decide)).2.1⟩

/-! ## One call of CheckPrime per value -/

theorem mem_evaluatedValues (l : List Event) (w : Nat) (x : Int)
    (h : Event.evaluated w x ∈ l) : x ∈ evaluatedValues l := by
  unfold evaluatedValues
  rw [List.mem_filterMap]
  exact ⟨_, h, rfl⟩

theorem exists_evaluated_of_mem (l : List Event) (x : Int) (h : x ∈ evaluatedValues l) :
    ∃ w, Event.evaluated w x ∈ l := by
  unfold evaluatedValues at h
  rw [List.mem_filterMap] at h
  obtain ⟨e, he, hx⟩ := h
  cases e with
  | claimed w y => exact absurd hx (by simp)
  | evaluated w y =>
    have : y = x := by simpa using hx
    subst this
    exact ⟨w, he⟩
  | exited w y => exact absurd hx (by simp)

theorem evaluated_worker_unique :
    ∀ (l : List Event), (evaluatedValues l).Nodup → ∀ (w w' : Nat) (x : Int),
      Event.evaluated w x ∈ l → Event.evaluated w' x ∈ l → w' = w := by
  intro l
  induction l with
  | nil => intro _ w w' x h; simp at h
  | cons e l ih =>
    intro hnd w w' x h1 h2
    have hcons : evaluatedValues (e :: l) =
        (match e with
          | .evaluated _ y => [y]
          | _ => []) ++ evaluatedValues l := by
      cases e <;> simp [evaluatedValues, List.filterMap_cons]
    rw [hcons] at hnd
    have hnd' : (evaluatedValues l).Nodup := (List.nodup_append.mp hnd).2.1
    rcases List.mem_cons.mp h1 with e1 | m1 <;> rcases List.mem_cons.mp h2 with e2 | m2
    · rw [← e1] at e2
      exact (Event.evaluated.inj e2).1
    · subst e1
      have hx := mem_evaluatedValues l w' x m2
      exact absurd hx ((List.nodup_cons.mp (by simpa using hnd)).1)
    · subst e2
      have hx := mem_evaluatedValues l w x m1
      exact absurd hx ((List.nodup_cons.mp (by simpa using hnd)).1)
    · exact ih hnd' w w' x m1 m2

/-! ## Small complete runs, evaluated -/

theorem demo_run : run 2 (initState 2) demoSchedule = some demoFinal := by decide

theorem demo_done : allDone demoFinal := by decide

theorem demo_run_mid : run 2 (initState 2) [0, 1] = some demoMid := by decide

theorem demo_run_low : run 0 (initState 2) demoScheduleLow = some demoFinalLow := by decide

theorem demo_bound : (2 : Int) + ((2 : Nat) : Int) ≤ MaxInt64 := by decide

/-! ## The claims about the runs of doBatch -/

theorem run_counts_primes_core (max : Int) (conc : Nat) (sched : List Nat) (s : State)
    (h0 : 0 ≤ max) (h1 : 1 ≤ conc) (hc : max + conc ≤ MaxInt64)
    (hrun : run max (initState conc) sched = some s) (hdone : allDone s) :
    s.totalPrime = primeCount max :=
  (Inv_final max conc h0 h1 s (Inv_reachable max conc h0 hc sched s hrun) hdone).2.2.1

/-- Claim C2 (amended): for every `max ≥ 0` and `concurrency ≥ 1` with
`max + concurrency ≤ MaxInt64`, every run from counter 0 and accumulator 0, in
any interleaving, ends (all workers exited) with the accumulator equal to the
number of primes `p` with `1 ≤ p ≤ max`; that number is 0 for `max = 1` and 1
for `max = 2`. -/
theorem run_counts_primes (max : Int) (conc : Nat) (sched : List Nat) (s : State)
    (h0 : 0 ≤ max) (h1 : 1 ≤ conc) (hc : max + conc ≤ MaxInt64)
    (hrun : run max (initState conc) sched = some s) (hdone : allDone s) :
    s.totalPrime = primeCount max ∧ primeCount 1 = 0 ∧ primeCount 2 = 1 := by
  refine ⟨run_counts_primes_core max conc sched s h0 h1 hc hrun hdone, ?_, ?_⟩
  · show (List.countP (fun p => decide (Nat.Prime p)) [1]) = 0
    simp [Nat.not_prime_one]
  · show (List.countP (fun p => decide (Nat.Prime p)) [1, 2]) = 1
    simp [Nat.not_prime_one, Nat.prime_two]

theorem run_counts_primes_witness :
    run 2 (initState 2) demoSchedule = some demoFinal ∧ allDone demoFinal ∧
      demoFinal.totalPrime = primeCount 2 :=
  ⟨demo_run, demo_done,
    (run_counts_primes 2 2 demoSchedule demoFinal (by decide) (by decide) demo_bound
      demo_run demo_done).1⟩

/-- Counterexample to claim C2 as stated: with `max = MaxInt64 - 1` and two
workers there is a complete run whose accumulator is not the number of primes
up to `max` (the counter wraps around and the range is walked twice). -/
theorem run_counts_primes_fails_near_MaxInt64 :
    ∃ sched s, run (MaxInt64 - 1) (initState 2) sched = some s ∧ allDone s ∧
      s.totalPrime ≠ primeCount (MaxInt64 - 1) := by
  obtain ⟨sched, s, hrun, hdone, _, hne, _, _⟩ := wrapped_run
  exact ⟨sched, s, hrun, hdone, hne⟩

/-- Claim C3 (amended): for every `max ≥ 0` and `concurrency ≥ 1` with
`max + concurrency ≤ MaxInt64`, in every interleaving the values returned by
the atomic increments are `1, 2, 3, ...` in claim order (strictly increasing,
hence pairwise distinct), and when all workers have exited the values passed to
`CheckPrime` are exactly the integers `1..max`, each passed exactly once, by
exactly one worker. -/
theorem claims_increase_and_each_value_is_checked_once (max : Int) (conc : Nat)
    (sched : List Nat) (s : State) (h0 : 0 ≤ max) (h1 : 1 ≤ conc)
    (hc : max + conc ≤ MaxInt64) (hrun : run max (initState conc) sched = some s) :
    claimedValues s.log = upTo s.start.toNat ∧
    (claimedValues s.log).Pairwise (· < ·) ∧
    (allDone s →
      claimedValues s.log = upTo (max.toNat + conc) ∧
      (evaluatedValues s.log).Perm (upTo max.toNat) ∧
      (∀ x : Int, (evaluatedValues s.log).count x = if 1 ≤ x ∧ x ≤ max then 1 else 0) ∧
      ∀ x : Int, 1 ≤ x → x ≤ max →
        ∃ w, Event.evaluated w x ∈ s.log ∧ ∀ w', Event.evaluated w' x ∈ s.log → w' = w) := by
  have hinv := Inv_reachable max conc h0 hc sched s hrun
  refine ⟨hinv.claimed_eq, ?_, ?_⟩
  · rw [hinv.claimed_eq]
    exact pairwise_upTo _
  · intro hdone
    obtain ⟨hperm, _, _, hcl⟩ := Inv_final max conc h0 h1 s hinv hdone
    have hm : ((max.toNat : Nat) : Int) = max := Int.toNat_of_nonneg h0
    refine ⟨hcl, hperm, ?_, ?_⟩
    · intro x
      rw [hperm.count_eq, count_upTo, hm]
    · intro x hx1 hx2
      have hmem : x ∈ evaluatedValues s.log :=
        hperm.mem_iff.mpr ((mem_upTo _ x).mpr ⟨hx1, by rw [hm]; exact hx2⟩)
      obtain ⟨w, hw⟩ := exists_evaluated_of_mem s.log x hmem
      exact ⟨w, hw, fun w' hw' =>
        evaluated_worker_unique s.log (hperm.nodup_iff.mpr (nodup_upTo _)) w w' x hw hw'⟩

theorem claims_increase_and_each_value_is_checked_once_witness :
    run 2 (initState 2) demoSchedule = some demoFinal ∧
      claimedValues demoFinal.log = upTo demoFinal.start.toNat :=
  ⟨demo_run,
    (claims_increase_and_each_value_is_checked_once 2 2 demoSchedule demoFinal (by decide)
      (by decide) demo_bound demo_run).1⟩

/-- Counterexample to claim C3 as stated: with `max = MaxInt64 - 1` and two
workers there is a complete run in which the claimed values are not increasing
(`MinInt64` is claimed after `MaxInt64`) and `MinInt64`, which is not one of
`1..max`, is passed to `CheckPrime`. -/
theorem claims_not_increasing_near_MaxInt64 :
    ∃ sched s, run (MaxInt64 - 1) (initState 2) sched = some s ∧ allDone s ∧
      ¬ (claimedValues s.log).Pairwise (· < ·) ∧
      ¬ (evaluatedValues s.log).Perm (upTo (MaxInt64 - 1).toNat) := by
  obtain ⟨sched, s, hrun, hdone, _, _, hmem, hnp⟩ := wrapped_run
  refine ⟨sched, s, hrun, hdone, hnp, ?_⟩
  intro hperm
  have h := (mem_upTo _ _).mp (hperm.mem_iff.mp hmem)
  have : MinInt64 = -(2 ^ 63) := rfl
  omega

/-- Claim C10 (amended): for every `max ≥ 0` and `concurrency ≥ 1` with
`max + concurrency ≤ MaxInt64`, at every reachable state the accumulator is at
most `min(counter, max)`, and when all workers have exited the counter equals
`max + concurrency`: `max` values were passed to `CheckPrime` and each of the
`concurrency` workers left on exactly one claimed value above `max`. -/
theorem counter_ends_at_max_plus_concurrency (max : Int) (conc : Nat) (sched : List Nat)
    (s : State) (h0 : 0 ≤ max) (h1 : 1 ≤ conc) (hc : max + conc ≤ MaxInt64)
    (hrun : run max (initState conc) sched = some s) :
    s.totalPrime ≤ min s.start max ∧
    (allDone s →
      s.start = max + conc ∧ (evaluatedValues s.log).length = max.toNat ∧
      (exitValues s.log).length = conc ∧
      ∀ w, w < conc → ∃ x, max < x ∧ exitsOf w s.log = [x]) := by
  have hinv := Inv_reachable max conc h0 hc sched s hrun
  refine ⟨(Inv_total_le max conc h0 s hinv).2, fun hdone => ?_⟩
  obtain ⟨hperm, hstart, _, _⟩ := Inv_final max conc h0 h1 s hinv hdone
  refine ⟨hstart, ?_, ?_, exits_once_above_max max conc sched s h0 hc hrun hdone⟩
  · rw [hperm.length_eq, length_upTo]
  · rw [hinv.exits_len, sum_isDone_of_allDone s.workers hdone, hinv.len]

theorem counter_ends_at_max_plus_concurrency_witness :
    run 2 (initState 2) demoSchedule = some demoFinal ∧ allDone demoFinal ∧
      demoFinal.start = 2 + (2 : Nat) :=
  ⟨demo_run, demo_done,
    ((counter_ends_at_max_plus_concurrency 2 2 demoSchedule demoFinal (by decide) (by decide)
      demo_bound demo_run).2 demo_done).1⟩

/-- Counterexample to claim C10 as stated: with `max = MaxInt64 - 1` and two
workers there is a complete run that ends with the counter at `MaxInt64`, which
is not `max + 2`. -/
theorem counter_not_max_plus_concurrency_near_MaxInt64 :
    ∃ sched s, run (MaxInt64 - 1) (initState 2) sched = some s ∧ allDone s ∧
      s.start ≠ (MaxInt64 - 1) + (2 : Nat) := by
  obtain ⟨sched, s, hrun, hdone, hstart, _, _, _⟩ := wrapped_run
  refine ⟨sched, s, hrun, hdone, ?_⟩
  rw [hstart]
  push_cast
  omega

/-- Claim C7 (amended): for every `max` with `0 ≤ max < MaxInt64` and every
`concurrency ≥ 1` a run always proceeds to completion: every interleaving has at
most `stepBound max concurrency` atomic steps, a state in which no worker can
step is one in which all workers have left their loops, and every interleaving
can be continued until all workers have left. -/
theorem run_always_completes (max : Int) (conc : Nat) (sched : List Nat) (s : State)
    (h0 : 0 ≤ max) (hlt : max < MaxInt64) (_h1 : 1 ≤ conc)
    (hrun : run max (initState conc) sched = some s) :
    sched.length ≤ stepBound max conc ∧
    ((∀ w, stepWorker max s w = none) → allDone s) ∧
    ∃ rest s', run max s rest = some s' ∧ allDone s' := by
  have hmin : MinInt64 ≤ max := by unfold MinInt64; omega
  have hn := NoPanic_run max sched _ s (NoPanic_init conc) hrun
  refine ⟨?_, allDone_of_stuck max s hn, exists_completion max hmin hlt _ s (le_refl _) hn⟩
  have h2 := stepsLeft_run max hmin hlt sched _ s hrun
  have h3 := stepsLeft_init max conc h0 hlt
  omega

theorem run_always_completes_witness :
    run 2 (initState 2) [0, 1] = some demoMid ∧
      ∃ rest s', run 2 demoMid rest = some s' ∧ allDone s' :=
  ⟨demo_run_mid,
    (run_always_completes 2 2 [0, 1] demoMid (by decide) (by decide) (by decide)
      demo_run_mid).2.2⟩

/-- Counterexample to claim C7 as stated: with `max = MaxInt64` (representable
as `int64`) no run of a single worker ever completes, and the worker can take
any number of steps: an `int64` value is never above `MaxInt64`. -/
theorem run_never_completes_at_MaxInt64 :
    (¬ ∃ sched s, run MaxInt64 (initState 1) sched = some s ∧ allDone s) ∧
    ∀ n : Nat, ∃ s, run MaxInt64 (initState 1) (List.replicate n 0) = some s := by
  constructor
  · rintro ⟨sched, s, hrun, hdone⟩
    obtain ⟨pc, _, hmem, hnd, _⟩ := worker_zero_looping sched s hrun
    exact hnd (hdone pc hmem)
  · intro n
    induction n with
    | zero => exact ⟨_, rfl⟩
    | succ n ih =>
      obtain ⟨s, hs⟩ := ih
      obtain ⟨pc, hg, _, hnd, hnp⟩ := worker_zero_looping _ s hs
      obtain ⟨s', hs'⟩ := stepWorker_progress MaxInt64 s 0 pc hg hnd hnp
      refine ⟨s', ?_⟩
      rw [List.replicate_succ', run_append MaxInt64 _ _ _ s hs, run, hs']
      rfl

/-- Claim C6: for every `max < 1` (an `int64`) and every `concurrency ≥ 1` (an
`int`, so at most `MaxInt64`), in every interleaving each worker does nothing
but claim one value above `max` and leave on it; `CheckPrime` is never called,
the accumulator stays 0, and the run can always be continued to its end, where
every worker has exited on its first claim with the accumulator 0. -/
theorem low_max_workers_exit_on_first_claim (max : Int) (conc : Nat) (sched : List Nat)
    (s : State) (hmin : MinInt64 ≤ max) (hmax : max < 1) (_h1 : 1 ≤ conc)
    (hc : (conc : Int) ≤ MaxInt64) (hrun : run max (initState conc) sched = some s) :
    evaluatedValues s.log = [] ∧ s.totalPrime = 0 ∧
    (∀ w, w < conc → eventsOf w s.log = [] ∨ ∃ x, max < x ∧
      (eventsOf w s.log = [Event.claimed w x] ∨
        eventsOf w s.log = [Event.claimed w x, Event.exited w x])) ∧
    (allDone s → ∀ w, w < conc → ∃ x, max < x ∧
      eventsOf w s.log = [Event.claimed w x, Event.exited w x]) ∧
    ∃ rest s', run max s rest = some s' ∧ allDone s' ∧ s'.totalPrime = 0 ∧
      evaluatedValues s'.log = [] := by
  have hinv := InvLow_run max conc hmax hc sched _ s (InvLow_init max conc) hrun
  have hM : MaxInt64 = 2 ^ 63 - 1 := rfl
  have hget : ∀ w, w < conc → ∃ pc, s.workers.get? w = some pc ∧ pc ∈ s.workers := by
    intro w hw
    have hlt : w < s.workers.length := by rw [hinv.len]; exact hw
    exact ⟨s.workers[w], by simp [hlt], List.getElem_mem hlt⟩
  refine ⟨hinv.no_eval, hinv.total, ?_, ?_, ?_⟩
  · intro w hw
    obtain ⟨pc, hg, _⟩ := hget w hw
    rcases hinv.hist w pc hg with ⟨_, he⟩ | ⟨x, hx, _, he⟩ | ⟨x, hx, _, he⟩
    · exact Or.inl he
    · exact Or.inr ⟨x, hx, Or.inl he⟩
    · exact Or.inr ⟨x, hx, Or.inr he⟩
  · intro hdone w hw
    obtain ⟨pc, hg, hmem⟩ := hget w hw
    have hpc := hdone pc hmem
    rcases hinv.hist w pc hg with ⟨h, _⟩ | ⟨x, _, h, _⟩ | ⟨x, hx, _, he⟩
    · rw [hpc] at h; exact absurd h (by simp)
    · rw [hpc] at h; exact absurd h (by simp)
    · exact ⟨x, hx, he⟩
  · have hn := NoPanic_run max sched _ s (NoPanic_init conc) hrun
    obtain ⟨rest, s', hrun', hdone'⟩ :=
      exists_completion max hmin (by omega) _ s (le_refl _) hn
    have hinv' := InvLow_run max conc hmax hc rest s s' hinv hrun'
    exact ⟨rest, s', hrun', hdone', hinv'.total, hinv'.no_eval⟩

theorem low_max_workers_exit_on_first_claim_witness :
    run 0 (initState 2) demoScheduleLow = some demoFinalLow ∧ demoFinalLow.totalPrime = 0 ∧
      evaluatedValues demoFinalLow.log = [] :=
  ⟨demo_run_low,
    (low_max_workers_exit_on_first_claim 0 2 demoScheduleLow demoFinalLow (by decide)
      (by decide) (by decide) (by decide) demo_run_low).2.1,
    (low_max_workers_exit_on_first_claim 0 2 demoScheduleLow demoFinalLow (by decide)
      (by decide) (by decide) (by decide) demo_run_low).1⟩

theorem calculatePrime_of_run (sched : List Nat) (s : State)
    (hrun : run MAX (initState CONCURRENCY) sched = some s) (hdone : allDone s) :
    calculatePrime sched = some s.totalPrime := by
  unfold calculatePrime
  rw [hrun]
  dsimp only
  rw [if_pos hdone]

/-- Claim C5: `calculatePrime`, with its constants `MAX = 100000` and
`CONCURRENCY = 10`, finishes with `totalPrime = 9592`, the number of primes up
to 100000, in every interleaving of its ten workers. -/
theorem calculatePrime_finds_9592 (sched : List Nat) (r : Int)
    (h : calculatePrime sched = some r) : r = 9592 ∧ primeCount MAX = 9592 := by
  unfold calculatePrime at h
  cases hrun : run MAX (initState CONCURRENCY) sched with
  | none => rw [hrun] at h; exact absurd h (by simp)
  | some s =>
    rw [hrun] at h
    dsimp only at h
    by_cases hdone : allDone s
    · rw [if_pos hdone] at h
      have hr : s.totalPrime = r := Option.some.inj h
      have hfin := (run_counts_primes_core MAX CONCURRENCY sched s (by decide) (by decide)
        (by decide) hrun hdone)
      rw [← hr, hfin]
      exact ⟨by rw [show MAX = 100000 from rfl, primeCount_100000]; rfl,
        by rw [show MAX = 100000 from rfl, primeCount_100000]⟩
    · rw [if_neg hdone] at h
      exact absurd h (by simp)

theorem calculatePrime_finds_9592_witness :
    calculatePrime (soloSchedule MAX CONCURRENCY) = some 9592 := by
  obtain ⟨s, hrun, hdone⟩ := solo_complete MAX CONCURRENCY (by decide) (by decide) (by decide)
  have h := calculatePrime_of_run (soloSchedule MAX CONCURRENCY) s hrun hdone
  exact h.trans (congrArg some
    (calculatePrime_finds_9592 (soloSchedule MAX CONCURRENCY) s.totalPrime h).1)

end GoServer
